import Mathlib

/-!
Verification of the dunedaqdal disablement resolution engine and parent-path
enumerator.

The development shallowly embeds the core of the repository:

* the component graph (plain components, AND/OR resource sets, segments,
  and the session root) as a function-indexed graph over natural-number UIDs;
* the DisabledComponents state (disabled-components.hpp) with its resolved
  disabled cache and the two user override sets;
* the cascade helpers DisabledComponents::disable_children for resource sets
  and segments;
* the fill classification pass collecting OR and AND resource sets while
  running the circular-dependency fuse;
* the seeding and fixed-point propagation loop of Component::disabled;
* TestCircularDependency (test_circular_dependency.hpp) with its depth
  limit of 64;
* make_parents_list / check_segment / Component::get_parents.

Machine containers (std::set of UID strings, std::set of component
pointers) are modelled as Finset Nat over the component UIDs; component
identity (ConfigObjectImpl pointers) is modelled by UID equality.
Recursions that in C++ run on the raw object graph are modelled with an
explicit fuel argument drawn from a rank function certifying that the
containment graph is acyclic (the repository validates the graph against
circular dependencies via the fuse); the fuel-exhaustion branches are
unreachable for the fuels used and every lemma shows the behaviour of the
source on the relevant inputs.
-/

namespace DuneDal

/-- The polymorphic kind of a component: plain component, OR resource set,
AND resource set, or segment (the session is modelled separately). -/
inductive CKind where
  | plain : CKind
  | rsOr : CKind
  | rsAnd : CKind
  | segment : CKind
deriving DecidableEq, Repr

/-- Read-only view of the configuration graph.  Components are identified by
UID (a natural number).  The field contains models ResourceSet::get_contains;
segApps, segResources and segSegments model Segment::get_applications,
get_resources and get_segments.  The rank field together with rank_lt
certifies that containment is acyclic: every containment child has strictly
smaller rank (the containment structure is a DAG; the code validates
against cycles with the circular-dependency fuse). -/
structure Graph where
  kind : Nat → CKind
  contains : Nat → List Nat
  segApps : Nat → List Nat
  segResources : Nat → List Nat
  segSegments : Nat → List Nat
  rank : Nat → Nat
  rank_lt : ∀ u c, c ∈ contains u ++ segApps u ++ segResources u ++ segSegments u →
    rank c < rank u

/-- True when the component casts to ResourceSet (either variant). -/
def isRS (g : Graph) (c : Nat) : Bool :=
  g.kind c = CKind.rsOr || g.kind c = CKind.rsAnd

/-- True when the component casts to Segment. -/
def isSeg (g : Graph) (c : Nat) : Bool :=
  g.kind c = CKind.segment

/-- The session (root) object: its UID, top-level segments and applications,
and the persisted disabled list (Session::get_disabled). -/
structure Session where
  uid : Nat
  segments : List Nat
  applications : List Nat
  disabled : List Nat

/-- State of dunedaq::dal::DisabledComponents: the resolved disabled cache
(m_disabled, a set of UIDs), the two user override sets, and the two
counters of set_disabled / set_enabled sizes. -/
structure DisabledComponents where
  m_disabled : Finset Nat
  m_user_disabled : Finset Nat
  m_user_enabled : Finset Nat
  m_num_of_slr_enabled_resources : Nat
  m_num_of_slr_disabled_resources : Nat
deriving DecidableEq

namespace DisabledComponents

/-- DisabledComponents::disable: insert the UID into the disabled cache. -/
def disable (st : DisabledComponents) (c : Nat) : DisabledComponents :=
  { st with m_disabled := insert c st.m_disabled }

/-- DisabledComponents::is_enabled_short: the UID is not in the cache. -/
def is_enabled_short (st : DisabledComponents) (c : Nat) : Bool :=
  c ∉ st.m_disabled

/-- DisabledComponents::size: the cardinality of the disabled cache. -/
def size (st : DisabledComponents) : Nat :=
  st.m_disabled.card

/-- DisabledComponents::__clear: drop the cache, both user override sets and
zero the two counters. -/
def clearAll (_st : DisabledComponents) : DisabledComponents :=
  ⟨∅, ∅, ∅, 0, 0⟩

/-- DisabledComponents::notify (store change notification callback): calls
__clear.  The list of configuration changes is not inspected. -/
def notify (_changes : List Nat) (st : DisabledComponents) : DisabledComponents :=
  clearAll st

/-- DisabledComponents::load (database load callback): calls __clear. -/
def load (st : DisabledComponents) : DisabledComponents :=
  clearAll st

/-- DisabledComponents::unload (database unload callback): calls __clear. -/
def unload (st : DisabledComponents) : DisabledComponents :=
  clearAll st

/-- DisabledComponents::update (object update callback): calls __clear.  The
object and attribute name are not inspected. -/
def update (_obj : Nat) (_name : String) (st : DisabledComponents) : DisabledComponents :=
  clearAll st

/-- DisabledComponents::reset: clear only the resolved cache; the comment in
the source insists the user override sets are not cleared. -/
def reset (st : DisabledComponents) : DisabledComponents :=
  { st with m_disabled := ∅ }

/-- DisabledComponents::is_enabled.  For a non-segment component this is
exactly is_enabled_short (the cache membership test).  For a Segment the
source delegates to the segment object's own disabled accessor, whose
generated implementation is not part of this repository snapshot; modelled
from the spec: the final answer is taken from the rebuilt cache, which is
the membership test again. -/
def is_enabled (_g : Graph) (st : DisabledComponents) (c : Nat) : Bool :=
  is_enabled_short st c

end DisabledComponents

/-- The error thrown by TestCircularDependency::push when the recursion
limit is reached: it carries the limit, the goal label and the components
currently on the path. -/
structure FoundCircularDependency where
  limit : Nat
  goal : String
  objects : List Nat
deriving DecidableEq

/-- The circular-dependency fuse: a goal label and the stack of components
on the current recursion path (p_objects together with p_index). -/
structure TestCircularDependency where
  goal : String
  stack : List Nat
deriving DecidableEq

/-- The fixed maximum recursion depth of the fuse (enum p_limit). -/
def fuseLimit : Nat := 64

namespace TestCircularDependency

/-- The constructor: records the goal and pushes the first object. -/
def mkFuse (goal : String) (first : Nat) : TestCircularDependency :=
  ⟨goal, [first]⟩

/-- TestCircularDependency::push: append the object while below the limit,
otherwise throw FoundCircularDependency carrying the limit, the goal and
every component currently on the path. -/
def push (t : TestCircularDependency) (obj : Nat) :
    Except FoundCircularDependency TestCircularDependency :=
  if t.stack.length < fuseLimit then
    Except.ok ⟨t.goal, t.stack ++ [obj]⟩
  else
    Except.error ⟨fuseLimit, t.goal, t.stack⟩

/-- TestCircularDependency::pop: drop the most recently entered component. -/
def pop (t : TestCircularDependency) : TestCircularDependency :=
  ⟨t.goal, t.stack.dropLast⟩

end TestCircularDependency

/-- Guard push on a bare stack (the AddTestOnCircularDependency RAII helper
as used by the traversals: push on entry, pop on scope exit; since the
traversals are modelled functionally the pop is implicit). -/
def guardPush (goal : String) (stack : List Nat) (x : Nat) :
    Except FoundCircularDependency (List Nat) :=
  if stack.length < fuseLimit then Except.ok (stack ++ [x])
  else Except.error ⟨fuseLimit, goal, stack⟩

open DisabledComponents

/-- Inner loop of DisabledComponents::disable_children(ResourceSet) over a
list of contained resources: disable each resource, and when it is itself a
resource set recurse into its own contains list.  The fuel argument is a
bound on the ranks appearing in the list; the fuel-zero branch with a
non-empty list is unreachable whenever the fuel bounds the ranks (as in
disable_children_rs below). -/
def dcRSGo (g : Graph) : Nat → List Nat → DisabledComponents → DisabledComponents
  | _, [], st => st
  | 0, _ :: _, st => st
  | fuel + 1, c :: rest, st =>
    let st1 := disable st c
    let st2 := if isRS g c then dcRSGo g fuel (g.contains c) st1 else st1
    dcRSGo g (fuel + 1) rest st2

/-- DisabledComponents::disable_children(const ResourceSet&): disable every
contained resource and recurse into contained resource sets. -/
def disable_children_rs (g : Graph) (rs : Nat) (st : DisabledComponents) :
    DisabledComponents :=
  dcRSGo g (g.rank rs) (g.contains rs) st

/-- First loop of DisabledComponents::disable_children(Segment): for each
resource of the segment that is a resource set, disable its children (the
resource itself is not disabled here). -/
def dcSegResLoop (g : Graph) (resources : List Nat) (st : DisabledComponents) :
    DisabledComponents :=
  resources.foldl (fun st r => if isRS g r then disable_children_rs g r st else st) st

mutual

/-- DisabledComponents::disable_children(const Segment&): for each resource
that is a resource set, disable its children; then disable every nested
segment and recurse into it.  The fuel bounds the segment rank. -/
def dcSeg (g : Graph) : Nat → Nat → DisabledComponents → DisabledComponents
  | 0, _, st => st
  | fuel + 1, seg, st =>
    dcSegList g fuel (g.segSegments seg) (dcSegResLoop g (g.segResources seg) st)

/-- Loop over the nested segments of a segment: disable each and recurse. -/
def dcSegList (g : Graph) : Nat → List Nat → DisabledComponents → DisabledComponents
  | _, [], st => st
  | fuel, sg :: rest, st => dcSegList g fuel rest (dcSeg g fuel sg (disable st sg))

end

/-- DisabledComponents::disable_children(const Segment&) entry point, with
fuel taken from the segment rank. -/
def disable_children_seg (g : Graph) (seg : Nat) (st : DisabledComponents) :
    DisabledComponents :=
  dcSeg g (g.rank seg + 1) seg st

/-- The goal label of the fuse built by Component::disabled. -/
def disabledGoal : String := "component \x27is-disabled\x27 status"

/-- Accumulator of the fill classification pass: the rs_or list and the
rs_and list. -/
structure FillAcc where
  rs_or : List Nat
  rs_and : List Nat
deriving DecidableEq

mutual

/-- Static fill(const ResourceSet&, ...): classify the resource set into the
rs_and bucket (checked first) or the rs_or bucket, then walk its contains
list.  The fuse was already pushed by the caller for this resource set. -/
def fillRS (g : Graph) (goal : String) (stack : List Nat) (rs : Nat) (acc : FillAcc) :
    Except FoundCircularDependency FillAcc :=
  let acc :=
    if g.kind rs = CKind.rsAnd then ⟨acc.rs_or, acc.rs_and ++ [rs]⟩
    else if g.kind rs = CKind.rsOr then ⟨acc.rs_or ++ [rs], acc.rs_and⟩
    else acc
  fillRSKids g goal stack (g.contains rs) acc
termination_by (2 * (fuseLimit - stack.length) + 1, 0)
decreasing_by
  all_goals simp_wf
  all_goals
    first
    | exact Prod.Lex.left _ _ (by omega)
    | exact Prod.Lex.right _ (by omega)

/-- Loop of fill(ResourceSet) over the contained resources: push each child
on the fuse (the push of AddTestOnCircularDependency is inlined, it is
definitionally guardPush), recurse when the child is a resource set. -/
def fillRSKids (g : Graph) (goal : String) (stack : List Nat) (cs : List Nat)
    (acc : FillAcc) : Except FoundCircularDependency FillAcc :=
  match cs with
  | [] => Except.ok acc
  | c :: rest =>
    if hlt : stack.length < fuseLimit then
      match (if isRS g c then fillRS g goal (stack ++ [c]) c acc else Except.ok acc) with
      | Except.error e => Except.error e
      | Except.ok acc1 => fillRSKids g goal stack rest acc1
    else Except.error ⟨fuseLimit, goal, stack⟩
termination_by (2 * (fuseLimit - stack.length), cs.length)
decreasing_by
  all_goals simp_wf
  all_goals
    first
    | exact Prod.Lex.left _ _ (by omega)
    | exact Prod.Lex.right _ (by omega)

/-- Static fill(const Segment&, ...): walk the applications, the resources
and the nested segments of the segment, pushing each on the fuse. -/
def fillSeg (g : Graph) (goal : String) (stack : List Nat) (seg : Nat) (acc : FillAcc) :
    Except FoundCircularDependency FillAcc :=
  match fillSegApps g goal stack (g.segApps seg) acc with
  | Except.error e => Except.error e
  | Except.ok acc1 =>
    match fillSegRess g goal stack (g.segResources seg) acc1 with
    | Except.error e => Except.error e
    | Except.ok acc2 => fillSegSegs g goal stack (g.segSegments seg) acc2
termination_by (2 * (fuseLimit - stack.length) + 1, 0)
decreasing_by
  all_goals simp_wf
  all_goals
    first
    | exact Prod.Lex.left _ _ (by omega)
    | exact Prod.Lex.right _ (by omega)

/-- Loop of fill(Segment) over the applications: push each on the fuse and
recurse into those that are resource sets. -/
def fillSegApps (g : Graph) (goal : String) (stack : List Nat) (cs : List Nat)
    (acc : FillAcc) : Except FoundCircularDependency FillAcc :=
  match cs with
  | [] => Except.ok acc
  | c :: rest =>
    if hlt : stack.length < fuseLimit then
      match (if isRS g c then fillRS g goal (stack ++ [c]) c acc else Except.ok acc) with
      | Except.error e => Except.error e
      | Except.ok acc1 => fillSegApps g goal stack rest acc1
    else Except.error ⟨fuseLimit, goal, stack⟩
termination_by (2 * (fuseLimit - stack.length), cs.length)
decreasing_by
  all_goals simp_wf
  all_goals
    first
    | exact Prod.Lex.left _ _ (by omega)
    | exact Prod.Lex.right _ (by omega)

/-- Loop of fill(Segment) over the resources: push each on the fuse and
recurse into those that are resource sets. -/
def fillSegRess (g : Graph) (goal : String) (stack : List Nat) (cs : List Nat)
    (acc : FillAcc) : Except FoundCircularDependency FillAcc :=
  match cs with
  | [] => Except.ok acc
  | c :: rest =>
    if hlt : stack.length < fuseLimit then
      match (if isRS g c then fillRS g goal (stack ++ [c]) c acc else Except.ok acc) with
      | Except.error e => Except.error e
      | Except.ok acc1 => fillSegRess g goal stack rest acc1
    else Except.error ⟨fuseLimit, goal, stack⟩
termination_by (2 * (fuseLimit - stack.length), cs.length)
decreasing_by
  all_goals simp_wf
  all_goals
    first
    | exact Prod.Lex.left _ _ (by omega)
    | exact Prod.Lex.right _ (by omega)

/-- Loop of fill(Segment) over the nested segments: push each on the fuse
and recurse. -/
def fillSegSegs (g : Graph) (goal : String) (stack : List Nat) (cs : List Nat)
    (acc : FillAcc) : Except FoundCircularDependency FillAcc :=
  match cs with
  | [] => Except.ok acc
  | c :: rest =>
    if hlt : stack.length < fuseLimit then
      match fillSeg g goal (stack ++ [c]) c acc with
      | Except.error e => Except.error e
      | Except.ok acc1 => fillSegSegs g goal stack rest acc1
    else Except.error ⟨fuseLimit, goal, stack⟩
termination_by (2 * (fuseLimit - stack.length), cs.length)
decreasing_by
  all_goals simp_wf
  all_goals
    first
    | exact Prod.Lex.left _ _ (by omega)
    | exact Prod.Lex.right _ (by omega)

end

/-- Loop of fill(const Session&, ...) over the session segments: push each
on the fuse and fill from it. -/
def fillSessionSegs (g : Graph) (goal : String) (stack : List Nat) (cs : List Nat)
    (acc : FillAcc) : Except FoundCircularDependency FillAcc :=
  match cs with
  | [] => Except.ok acc
  | c :: rest =>
    match guardPush goal stack c with
    | Except.error e => Except.error e
    | Except.ok stack' =>
      match fillSeg g goal stack' c acc with
      | Except.error e => Except.error e
      | Except.ok acc' => fillSessionSegs g goal stack rest acc'

/-- Static fill(const Session&, ...): walk the session segments.  The fuse
starts out holding the session object (pushed by the fuse constructor). -/
def fillSession (g : Graph) (sess : Session) : Except FoundCircularDependency FillAcc :=
  fillSessionSegs g disabledGoal [sess.uid] sess.segments ⟨[], []⟩

/-- The non-fatal error reported when the propagation loop exceeds the
iteration cap (dunedaq::dal::ReadMaxAllowedIterations). -/
structure ReadMaxAllowedIterations where
  limit : Nat
deriving DecidableEq

open DisabledComponents

/-- The seed list of Component::disabled: every user-disabled component
first, then every component of the persisted session disabled list that is
not in the user-enabled override set (vector_of_disabled in the source).
The std::set iteration order of m_user_disabled is modelled by the sorted
order of the UIDs. -/
def seedList (sess : Session) (st : DisabledComponents) : List Nat :=
  st.m_user_disabled.sort (· ≤ ·) ++
    sess.disabled.filter (fun i => i ∉ st.m_user_enabled)

/-- Seeding step of Component::disabled: disable the component, and when it
is a resource set or a segment disable its children too. -/
def seedOne (g : Graph) (st : DisabledComponents) (i : Nat) : DisabledComponents :=
  let st1 := disable st i
  if isRS g i then disable_children_rs g i st1
  else if isSeg g i then disable_children_seg g i st1
  else st1

/-- The seeding loop of Component::disabled over vector_of_disabled. -/
def applySeeds (g : Graph) (seeds : List Nat) (st : DisabledComponents) :
    DisabledComponents :=
  seeds.foldl (seedOne g) st

/-- One step of the OR pass of the propagation loop (one rs_or entry): when
the OR set is still enabled and any direct member is disabled, disable the
set and its children. -/
def processOr (g : Graph) (st : DisabledComponents) (o : Nat) : DisabledComponents :=
  if is_enabled_short st o then
    if (g.contains o).any (fun m => !is_enabled_short st m) then
      disable_children_rs g o (disable st o)
    else st
  else st

/-- One step of the AND pass of the propagation loop (one rs_and entry):
when the AND set is still enabled, has at least one member and no member is
enabled, disable the set and its children. -/
def processAnd (g : Graph) (st : DisabledComponents) (a : Nat) : DisabledComponents :=
  if is_enabled_short st a then
    let resources := g.contains a
    if resources.isEmpty then st
    else if resources.any (fun m => is_enabled_short st m) then st
    else disable_children_rs g a (disable st a)
  else st

/-- One full pass of the propagation loop: the rs_or loop followed by the
rs_and loop. -/
def onePass (g : Graph) (rs_or rs_and : List Nat) (st : DisabledComponents) :
    DisabledComponents :=
  (rs_or.foldl (processOr g) st) |> rs_and.foldl (processAnd g)

/-- The iteration cap of the propagation loop (iLimit in the source). -/
def iterLimit : Nat := 1000

/-- The propagation loop of Component::disabled.  The remaining argument is
iterLimit + 1 - count where count is the pass number of the source loop
(count starts at 1): after a pass that disabled something, the loop stops
with a ReadMaxAllowedIterations report exactly when count exceeded
iterLimit, i.e. when remaining reached zero. -/
def propLoopAux (g : Graph) (rs_or rs_and : List Nat) :
    Nat → DisabledComponents → DisabledComponents × Option ReadMaxAllowedIterations
  | remaining, st =>
    let st1 := onePass g rs_or rs_and st
    if size st1 = size st then (st1, none)
    else
      match remaining with
      | 0 => (st1, some ⟨iterLimit⟩)
      | r + 1 => propLoopAux g rs_or rs_and r st1

/-- The propagation loop started at pass count 1, i.e. with remaining =
iterLimit + 1 - 1 = iterLimit. -/
def propLoop (g : Graph) (rs_or rs_and : List Nat) (st : DisabledComponents) :
    DisabledComponents × Option ReadMaxAllowedIterations :=
  propLoopAux g rs_or rs_and iterLimit st

/-- The answer step of Component::disabled: with skip_check the negated
short check, otherwise the negated is_enabled test. -/
def answer (g : Graph) (st : DisabledComponents) (c : Nat) (skip_check : Bool) : Bool :=
  if skip_check then !is_enabled_short st c else !is_enabled g st c

/-- dunedaq::dal::Component::disabled(session, skip_check), for component c
under the disabled-components state st of the session.  Returns the answer,
the resulting state, and a flag recording whether the slow rebuild branch
ran (used to state the cache fast-path property); a circular-dependency
error of the classification pass propagates out. -/
def componentDisabled (g : Graph) (sess : Session) (st : DisabledComponents)
    (c : Nat) (skip_check : Bool) :
    Except FoundCircularDependency (Bool × DisabledComponents × Bool) :=
  if size st = 0 then
    if sess.disabled.isEmpty ∧ st.m_user_disabled = ∅ then
      Except.ok (false, st, false)
    else
      match fillSession g sess with
      | Except.error e => Except.error e
      | Except.ok acc =>
        let st1 := applySeeds g (seedList sess st) st
        let st2 := (propLoop g acc.rs_or acc.rs_and st1).1
        Except.ok (answer g st2 c skip_check, st2, true)
  else
    Except.ok (answer g st c skip_check, st, false)

/-- Session::set_disabled: replace the user-disabled override set
wholesale, record its size, and reset (clear) the resolved cache. -/
def set_disabled (st : DisabledComponents) (objs : Finset Nat) : DisabledComponents :=
  reset { st with m_user_disabled := objs,
                  m_num_of_slr_disabled_resources := objs.card }

/-- Session::set_enabled: replace the user-enabled override set wholesale,
record its size, and reset (clear) the resolved cache. -/
def set_enabled (st : DisabledComponents) (objs : Finset Nat) : DisabledComponents :=
  reset { st with m_user_enabled := objs,
                  m_num_of_slr_enabled_resources := objs.card }

/-- The goal label of the fuse built by Component::get_parents. -/
def parentsGoal : String := "component parents"

/-- A parent path: the ordered top-down list of container UIDs. -/
abbrev CPath := List Nat

/-- The error wrapper reported by Component::get_parents when the walk
fails: it carries the identity of the target component and the underlying
issue. -/
structure CannotGetParents where
  object : Nat
  cause : FoundCircularDependency
deriving DecidableEq

/-- Traversal results of the parents walk: either the accumulated output
list, or the circular-dependency issue together with the entries
accumulated before the throw (the out list is passed by reference in the
source, so entries recorded before the failure survive it). -/
abbrev ParentsResult := Except (FoundCircularDependency × List CPath) (List CPath)

mutual

/-- Static make_parents_list(child, resource_set, p_list, out, fuse): push
the resource set on the fuse (inlined AddTestOnCircularDependency) and on
the path, then scan its contained resources; a resource equal to the target
records the current path, a resource-set child is descended into. -/
def mplRS (g : Graph) (tgt : Nat) (stack : List Nat) (pl : CPath) (rs : Nat)
    (out : List CPath) : ParentsResult :=
  if hlt : stack.length < fuseLimit then
    mplRSKids g tgt (stack ++ [rs]) (pl ++ [rs]) (g.contains rs) out
  else Except.error (⟨fuseLimit, parentsGoal, stack⟩, out)
termination_by (2 * (fuseLimit - stack.length), 0)
decreasing_by
  all_goals simp_wf
  all_goals
    first
    | exact Prod.Lex.left _ _ (by omega)
    | exact Prod.Lex.right _ (by omega)

/-- Loop of make_parents_list(resource set) over the contains relation. -/
def mplRSKids (g : Graph) (tgt : Nat) (stack : List Nat) (pl : CPath) (cs : List Nat)
    (out : List CPath) : ParentsResult :=
  match cs with
  | [] => Except.ok out
  | c :: rest =>
    if c = tgt then mplRSKids g tgt stack pl rest (out ++ [pl])
    else if isRS g c then
      match mplRS g tgt stack pl c out with
      | Except.error e => Except.error e
      | Except.ok out1 => mplRSKids g tgt stack pl rest out1
    else mplRSKids g tgt stack pl rest out
termination_by (2 * (fuseLimit - stack.length) + 1, cs.length)
decreasing_by
  all_goals simp_wf
  all_goals
    first
    | exact Prod.Lex.left _ _ (by omega)
    | exact Prod.Lex.right _ (by omega)

/-- Static make_parents_list(child, segment, p_list, out, is_segment, fuse):
push the segment on the fuse and on the path; scan the nested segments, and
unless the target is itself a segment also the applications and the
resources of this segment. -/
def mplSeg (g : Graph) (tgt : Nat) (isSegTgt : Bool) (stack : List Nat) (pl : CPath)
    (seg : Nat) (out : List CPath) : ParentsResult :=
  if hlt : stack.length < fuseLimit then
    match mplSegSegs g tgt isSegTgt (stack ++ [seg]) (pl ++ [seg]) (g.segSegments seg) out with
    | Except.error e => Except.error e
    | Except.ok out1 =>
      if isSegTgt then Except.ok out1
      else
        match mplSegApps g tgt isSegTgt (stack ++ [seg]) (pl ++ [seg]) (g.segApps seg) out1 with
        | Except.error e => Except.error e
        | Except.ok out2 =>
          mplSegRess g tgt isSegTgt (stack ++ [seg]) (pl ++ [seg]) (g.segResources seg) out2
  else Except.error (⟨fuseLimit, parentsGoal, stack⟩, out)
termination_by (2 * (fuseLimit - stack.length), 0)
decreasing_by
  all_goals simp_wf
  all_goals
    first
    | exact Prod.Lex.left _ _ (by omega)
    | exact Prod.Lex.right _ (by omega)

/-- Loop of make_parents_list(segment) over the nested segments: a nested
segment equal to the target records the current path, any other nested
segment is descended into. -/
def mplSegSegs (g : Graph) (tgt : Nat) (isSegTgt : Bool) (stack : List Nat) (pl : CPath)
    (cs : List Nat) (out : List CPath) : ParentsResult :=
  match cs with
  | [] => Except.ok out
  | c :: rest =>
    if c = tgt then mplSegSegs g tgt isSegTgt stack pl rest (out ++ [pl])
    else
      match mplSeg g tgt isSegTgt stack pl c out with
      | Except.error e => Except.error e
      | Except.ok out1 => mplSegSegs g tgt isSegTgt stack pl rest out1
termination_by (2 * (fuseLimit - stack.length) + 1, cs.length)
decreasing_by
  all_goals simp_wf
  all_goals
    first
    | exact Prod.Lex.left _ _ (by omega)
    | exact Prod.Lex.right _ (by omega)

/-- Loop of make_parents_list(segment) over the applications: an
application equal to the target records the current path, an application
that is a resource set is descended into. -/
def mplSegApps (g : Graph) (tgt : Nat) (isSegTgt : Bool) (stack : List Nat) (pl : CPath)
    (cs : List Nat) (out : List CPath) : ParentsResult :=
  match cs with
  | [] => Except.ok out
  | c :: rest =>
    if c = tgt then mplSegApps g tgt isSegTgt stack pl rest (out ++ [pl])
    else if isRS g c then
      match mplRS g tgt stack pl c out with
      | Except.error e => Except.error e
      | Except.ok out1 => mplSegApps g tgt isSegTgt stack pl rest out1
    else mplSegApps g tgt isSegTgt stack pl rest out
termination_by (2 * (fuseLimit - stack.length) + 1, cs.length)
decreasing_by
  all_goals simp_wf
  all_goals
    first
    | exact Prod.Lex.left _ _ (by omega)
    | exact Prod.Lex.right _ (by omega)

/-- Loop of make_parents_list(segment) over the resources: a resource equal
to the target records the current path, a resource that is a resource set
is descended into. -/
def mplSegRess (g : Graph) (tgt : Nat) (isSegTgt : Bool) (stack : List Nat) (pl : CPath)
    (cs : List Nat) (out : List CPath) : ParentsResult :=
  match cs with
  | [] => Except.ok out
  | c :: rest =>
    if c = tgt then mplSegRess g tgt isSegTgt stack pl rest (out ++ [pl])
    else if isRS g c then
      match mplRS g tgt stack pl c out with
      | Except.error e => Except.error e
      | Except.ok out1 => mplSegRess g tgt isSegTgt stack pl rest out1
    else mplSegRess g tgt isSegTgt stack pl rest out
termination_by (2 * (fuseLimit - stack.length) + 1, cs.length)
decreasing_by
  all_goals simp_wf
  all_goals
    first
    | exact Prod.Lex.left _ _ (by omega)
    | exact Prod.Lex.right _ (by omega)

/-- Static check_segment(out, segment, child, is_segment, fuse): push the
segment on the fuse; when the segment is the target record the empty path;
then walk the segment with an empty path accumulator. -/
def check_segment (g : Graph) (tgt : Nat) (isSegTgt : Bool) (stack : List Nat)
    (seg : Nat) (out : List CPath) : ParentsResult :=
  if hlt : stack.length < fuseLimit then
    let out1 := if seg = tgt then out ++ [([] : CPath)] else out
    mplSeg g tgt isSegTgt (stack ++ [seg]) [] seg out1
  else Except.error (⟨fuseLimit, parentsGoal, stack⟩, out)
termination_by (2 * (fuseLimit - stack.length), 0)
decreasing_by
  all_goals simp_wf
  all_goals
    first
    | exact Prod.Lex.left _ _ (by omega)
    | exact Prod.Lex.right _ (by omega)

end

/-- Loop of Component::get_parents over the session segments. -/
def gpSegs (g : Graph) (tgt : Nat) (isSegTgt : Bool) (stack : List Nat) (cs : List Nat)
    (out : List CPath) : ParentsResult :=
  match cs with
  | [] => Except.ok out
  | c :: rest =>
    match check_segment g tgt isSegTgt stack c out with
    | Except.error e => Except.error e
    | Except.ok out1 => gpSegs g tgt isSegTgt stack rest out1

/-- Loop of Component::get_parents over the session applications: an
application that casts to ResourceSet is pushed on the fuse; when it is the
target the empty path is recorded; then its subtree is walked with an empty
path accumulator. -/
def gpApps (g : Graph) (tgt : Nat) (stack : List Nat) (cs : List Nat)
    (out : List CPath) : ParentsResult :=
  match cs with
  | [] => Except.ok out
  | c :: rest =>
    if isRS g c then
      if hlt : stack.length < fuseLimit then
        let out1 := if c = tgt then out ++ [([] : CPath)] else out
        match mplRS g tgt (stack ++ [c]) [] c out1 with
        | Except.error e => Except.error e
        | Except.ok out2 => gpApps g tgt stack rest out2
      else Except.error (⟨fuseLimit, parentsGoal, stack⟩, out)
    else gpApps g tgt stack rest out

/-- The body of Component::get_parents inside the try block: the fuse is
constructed holding the session object, the session segments are scanned
with check_segment, then the session applications. -/
def gpRun (g : Graph) (sess : Session) (tgt : Nat) : ParentsResult :=
  let isSegTgt := isSeg g tgt
  match gpSegs g tgt isSegTgt [sess.uid] sess.segments [] with
  | Except.error e => Except.error e
  | Except.ok out1 => gpApps g tgt [sess.uid] sess.applications out1

/-- dunedaq::dal::Component::get_parents(session, parents): on success the
accumulated paths are returned; a circular-dependency issue thrown during
the walk is caught and reported as a CannotGetParents error wrapping the
issue and carrying the identity of the target, while the entries
accumulated before the failure remain in the by-reference output list. -/
def component_get_parents (g : Graph) (sess : Session) (tgt : Nat) :
    List CPath × Option CannotGetParents :=
  match gpRun g sess tgt with
  | Except.ok parents => (parents, none)
  | Except.error (e, acc) => (acc, some ⟨tgt, e⟩)

/-- Transitive containment below a resource set, as reached by
disable_children(ResourceSet): the direct members, and recursively the
members of members that are themselves resource sets. -/
inductive RSDescendant (g : Graph) : Nat → Nat → Prop where
  | direct {r c : Nat} : c ∈ g.contains r → RSDescendant g r c
  | trans {r c d : Nat} : c ∈ g.contains r → isRS g c = true →
      RSDescendant g c d → RSDescendant g r d

/-- The components marked disabled by disable_children(Segment) below a
segment: every nested segment transitively, and the transitive members of
each resource of such a segment that is itself a resource set. -/
inductive SegMarked (g : Graph) : Nat → Nat → Prop where
  | seg_child {s c : Nat} : c ∈ g.segSegments s → SegMarked g s c
  | seg_rec {s c d : Nat} : c ∈ g.segSegments s → SegMarked g c d → SegMarked g s d
  | res_rs {s r d : Nat} : r ∈ g.segResources s → isRS g r = true →
      RSDescendant g r d → SegMarked g s d

mutual

/-- Valid descents of make_parents_list(resource set): DescRS r p holds
when, starting below resource set r and following the containers listed in
p, the target is a direct contained resource of the last container (of r
itself when p is empty).  The intermediate containers are resource sets
different from the target.  The isSegTgt parameter is unused here; it is
carried for uniformity with the mutually defined DescSeg. -/
inductive DescRS (g : Graph) (tgt : Nat) (isSegTgt : Bool) : Nat → CPath → Prop where
  | found {r : Nat} : tgt ∈ g.contains r → DescRS g tgt isSegTgt r []
  | step {r c : Nat} {p : CPath} : c ∈ g.contains r → c ≠ tgt → isRS g c = true →
      DescRS g tgt isSegTgt c p → DescRS g tgt isSegTgt r (c :: p)

/-- Valid descents of make_parents_list(segment): DescSeg s p holds when,
starting below segment s and following the containers listed in p, the
target is found as a direct child (nested segment, or, unless the target is
itself a segment, application or resource) of the last container. -/
inductive DescSeg (g : Graph) (tgt : Nat) (isSegTgt : Bool) : Nat → CPath → Prop where
  | found_seg {s : Nat} : tgt ∈ g.segSegments s → DescSeg g tgt isSegTgt s []
  | found_app {s : Nat} : isSegTgt = false → tgt ∈ g.segApps s →
      DescSeg g tgt isSegTgt s []
  | found_res {s : Nat} : isSegTgt = false → tgt ∈ g.segResources s →
      DescSeg g tgt isSegTgt s []
  | step_seg {s c : Nat} {p : CPath} : c ∈ g.segSegments s → c ≠ tgt →
      DescSeg g tgt isSegTgt c p → DescSeg g tgt isSegTgt s (c :: p)
  | step_app {s c : Nat} {p : CPath} : isSegTgt = false → c ∈ g.segApps s → c ≠ tgt →
      isRS g c = true → DescRS g tgt isSegTgt c p → DescSeg g tgt isSegTgt s (c :: p)
  | step_res {s c : Nat} {p : CPath} : isSegTgt = false → c ∈ g.segResources s →
      c ≠ tgt → isRS g c = true → DescRS g tgt isSegTgt c p →
      DescSeg g tgt isSegTgt s (c :: p)

end

/-- The containment routes Component::get_parents enumerates: the empty
path when the target is a top-level segment or a top-level resource-set
application of the session, and for every top-level segment or
resource-set application the top-down container sequences below it leading
to the target. -/
inductive TopRoute (g : Graph) (sess : Session) (tgt : Nat) (isSegTgt : Bool) :
    CPath → Prop where
  | top_seg_self : tgt ∈ sess.segments → TopRoute g sess tgt isSegTgt []
  | top_app_self : tgt ∈ sess.applications → isRS g tgt = true →
      TopRoute g sess tgt isSegTgt []
  | seg_route {s : Nat} {p : CPath} : s ∈ sess.segments → DescSeg g tgt isSegTgt s p →
      TopRoute g sess tgt isSegTgt (s :: p)
  | app_route {a : Nat} {p : CPath} : a ∈ sess.applications → isRS g a = true →
      DescRS g tgt isSegTgt a p → TopRoute g sess tgt isSegTgt (a :: p)

/-- Lookup in an association list from UID to child list (empty when the
UID has no entry); used to build concrete finite graphs. -/
def aLookup (l : List (Nat × List Nat)) (u : Nat) : List Nat :=
  match l.find? (fun p => p.1 == u) with
  | some p => p.2
  | none => []

/-- Lookup in an association list from UID to kind (plain when absent). -/
def kLookup (l : List (Nat × CKind)) (u : Nat) : CKind :=
  match l.find? (fun p => p.1 == u) with
  | some p => p.2
  | none => CKind.plain

/-- Lookup in an association list from UID to rank (zero when absent). -/
def rLookup (l : List (Nat × Nat)) (u : Nat) : Nat :=
  match l.find? (fun p => p.1 == u) with
  | some p => p.2
  | none => 0

/-- The finite, decidable acyclicity check for an association-list graph:
inside every child-list entry the children have strictly smaller rank than
the entry key. -/
def rankOkFor (rankL : List (Nat × Nat)) (l : List (Nat × List Nat)) : Prop :=
  ∀ p ∈ l, ∀ c ∈ p.2, rLookup rankL c < rLookup rankL p.1

instance (rankL : List (Nat × Nat)) (l : List (Nat × List Nat)) :
    Decidable (rankOkFor rankL l) := by
  unfold rankOkFor
  infer_instance

/-- Build a concrete graph from association lists.  The rank-decrease side
condition is checked on the finitely many entries. -/
def Graph.ofAssoc (kindL : List (Nat × CKind)) (cont apps ress segs : List (Nat × List Nat))
    (rankL : List (Nat × Nat)) (h : rankOkFor rankL (cont ++ apps ++ ress ++ segs)) :
    Graph where
  kind := kLookup kindL
  contains := aLookup cont
  segApps := aLookup apps
  segResources := aLookup ress
  segSegments := aLookup segs
  rank := rLookup rankL
  rank_lt := by
    intro u c hc
    have key : ∀ l : List (Nat × List Nat), c ∈ aLookup l u →
        ∃ p ∈ l, p.1 = u ∧ c ∈ p.2 := by
      intro l hm
      unfold aLookup at hm
      split at hm
      next p hf =>
        refine ⟨p, List.mem_of_find?_eq_some hf, ?_, hm⟩
        simpa using List.find?_some hf
      next => simp at hm
    simp only [List.mem_append] at hc
    rcases hc with ((hm | hm) | hm) | hm
    · obtain ⟨p, hp, he, hcp⟩ := key cont hm
      have := h p (by simp [hp]) c hcp
      rwa [he] at this
    · obtain ⟨p, hp, he, hcp⟩ := key apps hm
      have := h p (by simp [hp]) c hcp
      rwa [he] at this
    · obtain ⟨p, hp, he, hcp⟩ := key ress hm
      have := h p (by simp [hp]) c hcp
      rwa [he] at this
    · obtain ⟨p, hp, he, hcp⟩ := key segs hm
      have := h p (by simp [hp]) c hcp
      rwa [he] at this

/-- The baseline DisabledComponents state: empty cache, no overrides. -/
def dc0 : DisabledComponents := ⟨∅, ∅, ∅, 0, 0⟩

/-- A state whose user-enabled override holds component 1 (built through
Session::set_enabled from the baseline). -/
def dcUser1 : DisabledComponents := set_enabled dc0 {1}

/-- A state whose user-disabled override holds component 5 and whose
user-enabled override holds component 1 (built through Session::set_disabled
and Session::set_enabled from the baseline). -/
def dcU5 : DisabledComponents := set_disabled dcUser1 {5}

/-- Example graph with an OR set (0) and an AND set (3) both containing the
plain components 1 and 2, and an empty AND set (4). -/
def exG1 : Graph :=
  Graph.ofAssoc [(0, CKind.rsOr), (3, CKind.rsAnd), (4, CKind.rsAnd)]
    [(0, [1, 2]), (3, [1, 2])] [] [] [] [(0, 1), (3, 1)] (by decide)

/-- Example graph for the seeding claim: the AND set 0 contains the plain
component 1. -/
def exG3 : Graph :=
  Graph.ofAssoc [(0, CKind.rsAnd)] [(0, [1])] [] [] [] [(0, 1)] (by decide)

/-- Example session whose persisted disabled list holds the resource set 0
and its member 1. -/
def sess3 : Session := ⟨99, [], [], [0, 1]⟩

/-- Example graph for the segment cascade claim: the segment 0 holds the
plain application 1. -/
def exG4 : Graph :=
  Graph.ofAssoc [(0, CKind.segment)] [] [(0, [1])] [] [] [(0, 1)] (by decide)

/-- Example session whose persisted disabled list holds the segment 0,
which is also the only top-level segment. -/
def sess4 : Session := ⟨99, [0], [], [0]⟩

/-- Example session for the cache fast-path claim: the persisted disabled
list holds only the plain component 1 (the graph is empty). -/
def sess7 : Session := ⟨99, [], [], [1]⟩

/-- The empty graph. -/
def exG7 : Graph := Graph.ofAssoc [] [] [] [] [] [] (by decide)

/-- Example graph for the parents claim: the segment 10 holds the plain
application 5. -/
def exG8 : Graph :=
  Graph.ofAssoc [(10, CKind.segment)] [] [(10, [5])] [] [] [(10, 1)] (by decide)

/-- Example session with the single top-level segment 10. -/
def sess8 : Session := ⟨99, [10], [], []⟩

/-- Example graph for the fuse-overflow witness: a containment chain of 71
nested AND resource sets 0, 1, ..., 70. -/
def exG9 : Graph where
  kind := fun u => if u ≤ 70 then CKind.rsAnd else CKind.plain
  contains := fun u => if u < 70 then [u + 1] else []
  segApps := fun _ => []
  segResources := fun _ => []
  segSegments := fun _ => []
  rank := fun u => 71 - u
  rank_lt := by
    intro u c h
    simp only [List.append_nil] at h
    by_cases hu : u < 70
    · simp only [if_pos hu, List.mem_singleton] at h
      subst h
      show 71 - (u + 1) < 71 - u
      omega
    · simp [if_neg hu] at h

/-- Example session whose single top-level application is the head of the
containment chain of exG9. -/
def sess9 : Session := ⟨999, [], [0], []⟩

/-- Each state transformer of the resolver only adds to the disabled cache
and never touches the override sets or counters; this predicate packages
that frame condition. -/
def OnlyAdds (st st' : DisabledComponents) : Prop :=
  st.m_disabled ⊆ st'.m_disabled ∧
  st'.m_user_disabled = st.m_user_disabled ∧
  st'.m_user_enabled = st.m_user_enabled ∧
  st'.m_num_of_slr_enabled_resources = st.m_num_of_slr_enabled_resources ∧
  st'.m_num_of_slr_disabled_resources = st.m_num_of_slr_disabled_resources

/-- The rebuilt state of Component::disabled given the classification
result acc. -/
def rebuiltState (g : Graph) (sess : Session) (st : DisabledComponents) (acc : FillAcc) :
    DisabledComponents :=
  (propLoop g acc.rs_or acc.rs_and (applySeeds g (seedList sess st) st)).1

/-! ## Basic lemmas about the disabled-components state -/

open DisabledComponents

theorem mem_disable {st : DisabledComponents} {c x : Nat} :
    x ∈ (disable st c).m_disabled ↔ x = c ∨ x ∈ st.m_disabled := by
  simp [disable]

theorem disable_user_eq (st : DisabledComponents) (c : Nat) :
    (disable st c).m_user_disabled = st.m_user_disabled ∧
    (disable st c).m_user_enabled = st.m_user_enabled ∧
    (disable st c).m_num_of_slr_enabled_resources = st.m_num_of_slr_enabled_resources ∧
    (disable st c).m_num_of_slr_disabled_resources = st.m_num_of_slr_disabled_resources :=
  ⟨rfl, rfl, rfl, rfl⟩

theorem onlyAdds_refl (st : DisabledComponents) : OnlyAdds st st :=
  ⟨Finset.Subset.refl _, rfl, rfl, rfl, rfl⟩

theorem onlyAdds_trans {a b c : DisabledComponents} (h1 : OnlyAdds a b)
    (h2 : OnlyAdds b c) : OnlyAdds a c :=
  ⟨Finset.Subset.trans h1.1 h2.1, by rw [h2.2.1, h1.2.1], by rw [h2.2.2.1, h1.2.2.1],
   by rw [h2.2.2.2.1, h1.2.2.2.1], by rw [h2.2.2.2.2, h1.2.2.2.2]⟩

theorem onlyAdds_disable (st : DisabledComponents) (c : Nat) :
    OnlyAdds st (disable st c) :=
  ⟨fun x hx => mem_disable.mpr (Or.inr hx), rfl, rfl, rfl, rfl⟩

theorem onlyAdds_foldl {α : Type} {f : DisabledComponents → α → DisabledComponents}
    (hf : ∀ st x, OnlyAdds st (f st x)) :
    ∀ (l : List α) (st : DisabledComponents), OnlyAdds st (l.foldl f st) := by
  intro l
  induction l with
  | nil => intro st; exact onlyAdds_refl st
  | cons x xs ih =>
    intro st
    exact onlyAdds_trans (hf st x) (ih (f st x))

/-- Membership in a fold whenever some list element uniformly forces it. -/
theorem mem_foldl_of_elem {α : Type} {f : DisabledComponents → α → DisabledComponents}
    (hf : ∀ st x, OnlyAdds st (f st x)) {x : α} {d : Nat}
    (hforce : ∀ st, d ∈ (f st x).m_disabled) :
    ∀ (l : List α) (st : DisabledComponents), x ∈ l → d ∈ (l.foldl f st).m_disabled := by
  intro l
  induction l with
  | nil => intro st hx; cases hx
  | cons y ys ih =>
    intro st hx
    rw [List.foldl_cons]
    rcases List.mem_cons.mp hx with h | h
    · subst h
      exact (onlyAdds_foldl hf ys (f st x)).1 (hforce st)
    · exact ih (f st y) h

theorem onlyAdds_dcRSGo (g : Graph) :
    ∀ (f : Nat) (cs : List Nat) (st : DisabledComponents), OnlyAdds st (dcRSGo g f cs st) := by
  intro f
  induction f with
  | zero =>
    intro cs st
    cases cs with
    | nil => simp only [dcRSGo]; exact onlyAdds_refl st
    | cons c rest => simp only [dcRSGo]; exact onlyAdds_refl st
  | succ f ih =>
    intro cs
    induction cs with
    | nil => intro st; simp only [dcRSGo]; exact onlyAdds_refl st
    | cons c rest ihcs =>
      intro st
      simp only [dcRSGo]
      have h1 : OnlyAdds st
          (if isRS g c then dcRSGo g f (g.contains c) (disable st c) else disable st c) := by
        by_cases hrs : isRS g c
        · simpa [hrs] using onlyAdds_trans (onlyAdds_disable st c)
            (ih (g.contains c) (disable st c))
        · simpa [hrs] using onlyAdds_disable st c
      exact onlyAdds_trans h1 (ihcs _)

theorem onlyAdds_disable_children_rs (g : Graph) (rs : Nat) (st : DisabledComponents) :
    OnlyAdds st (disable_children_rs g rs st) :=
  onlyAdds_dcRSGo g (g.rank rs) (g.contains rs) st

theorem onlyAdds_dcSegResLoop (g : Graph) (l : List Nat) (st : DisabledComponents) :
    OnlyAdds st (dcSegResLoop g l st) := by
  refine onlyAdds_foldl ?_ l st
  intro st r
  by_cases hrs : isRS g r
  · simpa [dcSegResLoop, hrs] using onlyAdds_disable_children_rs g r st
  · simp [dcSegResLoop, hrs]
    exact onlyAdds_refl _

theorem onlyAdds_dcSeg (g : Graph) :
    ∀ (f : Nat) (seg : Nat) (st : DisabledComponents), OnlyAdds st (dcSeg g f seg st) := by
  have main : ∀ f : Nat,
      (∀ seg st, OnlyAdds st (dcSeg g f seg st)) ∧
      (∀ cs st, OnlyAdds st (dcSegList g f cs st)) := by
    intro f
    induction f with
    | zero =>
      have hseg0 : ∀ seg st, OnlyAdds st (dcSeg g 0 seg st) := by
        intro seg st
        simp only [dcSeg]
        exact onlyAdds_refl st
      refine ⟨hseg0, ?_⟩
      intro cs
      induction cs with
      | nil => intro st; simp only [dcSegList]; exact onlyAdds_refl st
      | cons c rest ihcs =>
        intro st
        simp only [dcSegList]
        exact onlyAdds_trans
          (onlyAdds_trans (onlyAdds_disable st c) (hseg0 c _)) (ihcs _)
    | succ f ih =>
      have hlist : ∀ cs st, OnlyAdds st (dcSegList g f cs st) := by
        intro cs
        induction cs with
        | nil => intro st; simp only [dcSegList]; exact onlyAdds_refl st
        | cons c rest ihcs =>
          intro st
          simp only [dcSegList]
          exact onlyAdds_trans
            (onlyAdds_trans (onlyAdds_disable st c) (ih.1 c _)) (ihcs _)
      have hseg : ∀ seg st, OnlyAdds st (dcSeg g (f + 1) seg st) := by
        intro seg st
        simp only [dcSeg]
        exact onlyAdds_trans (onlyAdds_dcSegResLoop g (g.segResources seg) st)
          (hlist (g.segSegments seg) (dcSegResLoop g (g.segResources seg) st))
      refine ⟨hseg, ?_⟩
      intro cs
      induction cs with
      | nil => intro st; simp only [dcSegList]; exact onlyAdds_refl st
      | cons c rest ihcs =>
        intro st
        simp only [dcSegList]
        exact onlyAdds_trans (onlyAdds_trans (onlyAdds_disable st c) (hseg c _)) (ihcs _)
  intro f
  exact (main f).1

theorem onlyAdds_disable_children_seg (g : Graph) (seg : Nat) (st : DisabledComponents) :
    OnlyAdds st (disable_children_seg g seg st) :=
  onlyAdds_dcSeg g (g.rank seg + 1) seg st

theorem onlyAdds_seedOne (g : Graph) (st : DisabledComponents) (i : Nat) :
    OnlyAdds st (seedOne g st i) := by
  unfold seedOne
  by_cases hrs : isRS g i
  · simpa [hrs] using onlyAdds_trans (onlyAdds_disable st i)
      (onlyAdds_disable_children_rs g i (disable st i))
  · by_cases hsg : isSeg g i
    · simpa [hrs, hsg] using onlyAdds_trans (onlyAdds_disable st i)
        (onlyAdds_disable_children_seg g i (disable st i))
    · simpa [hrs, hsg] using onlyAdds_disable st i

theorem onlyAdds_applySeeds (g : Graph) (seeds : List Nat) (st : DisabledComponents) :
    OnlyAdds st (applySeeds g seeds st) :=
  onlyAdds_foldl (onlyAdds_seedOne g) seeds st

theorem onlyAdds_processOr (g : Graph) (st : DisabledComponents) (o : Nat) :
    OnlyAdds st (processOr g st o) := by
  unfold processOr
  by_cases he : is_enabled_short st o
  · by_cases hd : (g.contains o).any (fun m => !is_enabled_short st m)
    · simpa [he, hd] using onlyAdds_trans (onlyAdds_disable st o)
        (onlyAdds_disable_children_rs g o (disable st o))
    · simp [he, hd]
      exact onlyAdds_refl st
  · simp [he]
    exact onlyAdds_refl st

theorem onlyAdds_processAnd (g : Graph) (st : DisabledComponents) (a : Nat) :
    OnlyAdds st (processAnd g st a) := by
  unfold processAnd
  by_cases he : is_enabled_short st a
  · by_cases hes : (g.contains a).isEmpty
    · simp [he, hes]
      exact onlyAdds_refl st
    · by_cases hany : (g.contains a).any (fun m => is_enabled_short st m)
      · simp [he, hes, hany]
        exact onlyAdds_refl st
      · simpa [he, hes, hany] using onlyAdds_trans (onlyAdds_disable st a)
          (onlyAdds_disable_children_rs g a (disable st a))
  · simp [he]
    exact onlyAdds_refl st

theorem onlyAdds_onePass (g : Graph) (rs_or rs_and : List Nat) (st : DisabledComponents) :
    OnlyAdds st (onePass g rs_or rs_and st) := by
  unfold onePass
  exact onlyAdds_trans (onlyAdds_foldl (onlyAdds_processOr g) rs_or st)
    (onlyAdds_foldl (onlyAdds_processAnd g) rs_and _)

theorem onlyAdds_propLoopAux (g : Graph) (rs_or rs_and : List Nat) :
    ∀ (remaining : Nat) (st : DisabledComponents),
      OnlyAdds st (propLoopAux g rs_or rs_and remaining st).1 := by
  intro remaining
  induction remaining with
  | zero =>
    intro st
    simp only [propLoopAux]
    by_cases h : size (onePass g rs_or rs_and st) = size st
    · simpa [h] using onlyAdds_onePass g rs_or rs_and st
    · simpa [h] using onlyAdds_onePass g rs_or rs_and st
  | succ r ih =>
    intro st
    simp only [propLoopAux]
    by_cases h : size (onePass g rs_or rs_and st) = size st
    · simpa [h] using onlyAdds_onePass g rs_or rs_and st
    · simp only [h, if_false]
      exact onlyAdds_trans (onlyAdds_onePass g rs_or rs_and st) (ih _)

/-! ## Cascade coverage lemmas -/

theorem is_enabled_short_iff {st : DisabledComponents} {c : Nat} :
    is_enabled_short st c = true ↔ c ∉ st.m_disabled := by
  simp [is_enabled_short]

theorem rsDescendant_elim {g : Graph} {r d : Nat} (h : RSDescendant g r d) :
    ∃ c ∈ g.contains r, c = d ∨ (isRS g c = true ∧ RSDescendant g c d) := by
  cases h with
  | direct hc => exact ⟨d, hc, Or.inl rfl⟩
  | @trans _ c _ hc hrs hd => exact ⟨c, hc, Or.inr ⟨hrs, hd⟩⟩

theorem dcRSGo_covers (g : Graph) :
    ∀ (f : Nat) (cs : List Nat) (st : DisabledComponents) (d : Nat),
      (∀ c ∈ cs, g.rank c < f) →
      (∃ c ∈ cs, c = d ∨ (isRS g c = true ∧ RSDescendant g c d)) →
      d ∈ (dcRSGo g f cs st).m_disabled := by
  intro f
  induction f with
  | zero =>
    intro cs st d hranks hex
    obtain ⟨c, hc, _⟩ := hex
    exact absurd (hranks c hc) (Nat.not_lt_zero _)
  | succ f ih =>
    intro cs
    induction cs with
    | nil =>
      intro st d _ hex
      obtain ⟨c, hc, _⟩ := hex
      cases hc
    | cons c rest ihcs =>
      intro st d hranks hex
      simp only [dcRSGo]
      obtain ⟨c0, hc0, hcase⟩ := hex
      rcases List.mem_cons.mp hc0 with hh | hh
      · subst hh
        have hmem : d ∈ (if isRS g c0 then dcRSGo g f (g.contains c0) (disable st c0)
            else disable st c0).m_disabled := by
          rcases hcase with rfl | ⟨hrs, hdesc⟩
          · by_cases hrs : isRS g c0
            · simp only [hrs, if_true]
              exact (onlyAdds_dcRSGo g f (g.contains c0) (disable st c0)).1
                (mem_disable.mpr (Or.inl rfl))
            · simp only [if_neg hrs]
              exact mem_disable.mpr (Or.inl rfl)
          · simp only [hrs, if_true]
            obtain ⟨m, hm, hmc⟩ := rsDescendant_elim hdesc
            refine ih (g.contains c0) (disable st c0) d ?_ ⟨m, hm, hmc⟩
            intro x hx
            have hx1 : g.rank x < g.rank c0 := g.rank_lt c0 x (by simp [hx])
            have hx2 : g.rank c0 < f + 1 := hranks c0 (List.mem_cons_self c0 rest)
            omega
        exact (onlyAdds_dcRSGo g (f + 1) rest _).1 hmem
      · exact ihcs _ d (fun x hx => hranks x (List.mem_cons_of_mem c hx)) ⟨c0, hh, hcase⟩

theorem disable_children_rs_covers {g : Graph} {rs d : Nat}
    (h : RSDescendant g rs d) (st : DisabledComponents) :
    d ∈ (disable_children_rs g rs st).m_disabled := by
  obtain ⟨c, hc, hcase⟩ := rsDescendant_elim h
  refine dcRSGo_covers g (g.rank rs) (g.contains rs) st d ?_ ⟨c, hc, hcase⟩
  intro x hx
  exact g.rank_lt rs x (by simp [hx])

theorem dcSegResLoop_covers {g : Graph} {r d : Nat} (l : List Nat)
    (hr : r ∈ l) (hrs : isRS g r = true) (hdesc : RSDescendant g r d)
    (st : DisabledComponents) : d ∈ (dcSegResLoop g l st).m_disabled := by
  refine mem_foldl_of_elem ?_ ?_ l st hr
  · intro st x
    by_cases hx : isRS g x
    · simpa [hx] using onlyAdds_disable_children_rs g x st
    · simpa [hx] using onlyAdds_refl st
  · intro st'
    simpa [hrs] using disable_children_rs_covers hdesc st'

theorem onlyAdds_dcSegList (g : Graph) (f : Nat) :
    ∀ (cs : List Nat) (st : DisabledComponents), OnlyAdds st (dcSegList g f cs st) := by
  intro cs
  induction cs with
  | nil => intro st; simp only [dcSegList]; exact onlyAdds_refl st
  | cons c rest ih =>
    intro st
    simp only [dcSegList]
    exact onlyAdds_trans
      (onlyAdds_trans (onlyAdds_disable st c) (onlyAdds_dcSeg g f c _)) (ih _)

theorem dcSeg_covers (g : Graph) :
    ∀ (f : Nat),
      (∀ seg st d, g.rank seg < f → SegMarked g seg d →
        d ∈ (dcSeg g f seg st).m_disabled) ∧
      (∀ cs st d, (∀ c ∈ cs, g.rank c < f) →
        (∃ c ∈ cs, c = d ∨ SegMarked g c d) →
        d ∈ (dcSegList g f cs st).m_disabled) := by
  intro f
  induction f with
  | zero =>
    constructor
    · intro seg st d hrank
      exact absurd hrank (Nat.not_lt_zero _)
    · intro cs st d hranks hex
      obtain ⟨c, hc, _⟩ := hex
      exact absurd (hranks c hc) (Nat.not_lt_zero _)
  | succ f ih =>
    have hseg : ∀ seg st d, g.rank seg < f + 1 → SegMarked g seg d →
        d ∈ (dcSeg g (f + 1) seg st).m_disabled := by
      intro seg st d hrank hmk
      simp only [dcSeg]
      have hranks : ∀ c ∈ g.segSegments seg, g.rank c < f := by
        intro x hx
        have hx1 : g.rank x < g.rank seg := g.rank_lt seg x (by simp [hx])
        omega
      cases hmk with
      | seg_child hc =>
        exact ih.2 (g.segSegments seg) _ d hranks ⟨d, hc, Or.inl rfl⟩
      | @seg_rec _ c _ hc hrec =>
        exact ih.2 (g.segSegments seg) _ d hranks ⟨c, hc, Or.inr hrec⟩
      | @res_rs _ r _ hr hrs hdesc =>
        have hres : d ∈ (dcSegResLoop g (g.segResources seg) st).m_disabled :=
          dcSegResLoop_covers (g.segResources seg) hr hrs hdesc st
        exact (onlyAdds_dcSegList g f (g.segSegments seg) _).1 hres
    refine ⟨hseg, ?_⟩
    intro cs
    induction cs with
    | nil =>
      intro st d _ hex
      obtain ⟨c, hc, _⟩ := hex
      cases hc
    | cons c rest ihcs =>
      intro st d hranks hex
      simp only [dcSegList]
      obtain ⟨c0, hc0, hcase⟩ := hex
      rcases List.mem_cons.mp hc0 with hh | hh
      · subst hh
        have hmem : d ∈ (dcSeg g (f + 1) c0 (disable st c0)).m_disabled := by
          rcases hcase with rfl | hmk
          · exact (onlyAdds_dcSeg g (f + 1) c0 _).1 (mem_disable.mpr (Or.inl rfl))
          · exact hseg c0 _ d (hranks c0 (List.mem_cons_self c0 rest)) hmk
        exact (onlyAdds_dcSegList g (f + 1) rest _).1 hmem
      · exact ihcs _ d (fun x hx => hranks x (List.mem_cons_of_mem c hx)) ⟨c0, hh, hcase⟩

theorem disable_children_seg_covers {g : Graph} {seg d : Nat}
    (h : SegMarked g seg d) (st : DisabledComponents) :
    d ∈ (disable_children_seg g seg st).m_disabled :=
  (dcSeg_covers g (g.rank seg + 1)).1 seg st d (Nat.lt_succ_self _) h

/-! ## Claim theorems: propagation collapse rules (C1, C2) -/

theorem processOr_any_iff {g : Graph} {st : DisabledComponents} {o : Nat} :
    ((g.contains o).any (fun m => !is_enabled_short st m) = true) ↔
      ∃ m ∈ g.contains o, m ∈ st.m_disabled := by
  simp [is_enabled_short]

/-- C1: during fixed-point propagation, an OR resource set that is still
considered enabled when examined becomes disabled in the pass exactly when
one of its direct members is disabled, and when that happens all of its
transitive contained descendants are marked disabled as well. -/
theorem or_set_collapse (g : Graph) (st : DisabledComponents) (o : Nat)
    (hk : g.kind o = CKind.rsOr) (ho : is_enabled_short st o = true) :
    (o ∈ (processOr g st o).m_disabled ↔ ∃ m ∈ g.contains o, m ∈ st.m_disabled) ∧
    (∀ d, o ∈ (processOr g st o).m_disabled → RSDescendant g o d →
      d ∈ (processOr g st o).m_disabled) := by
  have hout : o ∉ st.m_disabled := is_enabled_short_iff.mp ho
  by_cases hany : (g.contains o).any (fun m => !is_enabled_short st m) = true
  · have hrw : processOr g st o = disable_children_rs g o (disable st o) := by
      unfold processOr
      rw [if_pos ho, if_pos hany]
    constructor
    · rw [hrw]
      constructor
      · intro _
        exact processOr_any_iff.mp hany
      · intro _
        exact (onlyAdds_disable_children_rs g o (disable st o)).1
          (mem_disable.mpr (Or.inl rfl))
    · intro d _ hdesc
      rw [hrw]
      exact disable_children_rs_covers hdesc (disable st o)
  · have hrw : processOr g st o = st := by
      unfold processOr
      rw [if_pos ho, if_neg hany]
    constructor
    · rw [hrw]
      constructor
      · intro hmem
        exact absurd hmem hout
      · intro hex
        exact absurd (processOr_any_iff.mpr hex) hany
    · intro d hmem
      rw [hrw] at hmem
      exact absurd hmem hout

/-- Witness for C1 at a concrete input: with member 1 of the OR set 0
disabled, the OR set becomes disabled and so does its other member 2. -/
theorem or_set_collapse_witness :
    0 ∈ (processOr exG1 (disable dc0 1) 0).m_disabled ∧
    2 ∈ (processOr exG1 (disable dc0 1) 0).m_disabled := by
  have h := or_set_collapse exG1 (disable dc0 1) 0 (by decide) (by decide)
  have h0 : 0 ∈ (processOr exG1 (disable dc0 1) 0).m_disabled :=
    h.1.mpr ⟨1, by decide, by decide⟩
  exact ⟨h0, h.2 2 h0 (RSDescendant.direct (by decide))⟩

/-- C2: during fixed-point propagation, an AND resource set that is still
considered enabled and has at least one direct member becomes disabled
exactly when every direct member is disabled; an AND set with no members is
left untouched by the rule. -/
theorem and_set_collapse (g : Graph) (st : DisabledComponents) (a : Nat)
    (hk : g.kind a = CKind.rsAnd) (ha : is_enabled_short st a = true) :
    (g.contains a ≠ [] →
      (a ∈ (processAnd g st a).m_disabled ↔ ∀ m ∈ g.contains a, m ∈ st.m_disabled)) ∧
    (g.contains a = [] → processAnd g st a = st) := by
  have hout : a ∉ st.m_disabled := is_enabled_short_iff.mp ha
  constructor
  · intro hne
    have hes : (g.contains a).isEmpty = false := by
      cases hcs : g.contains a with
      | nil => exact absurd hcs hne
      | cons x xs => simp
    by_cases hany : (g.contains a).any (fun m => is_enabled_short st m) = true
    · have hrw : processAnd g st a = st := by
        unfold processAnd
        rw [if_pos ha]
        simp only [hes, Bool.false_eq_true, if_false, hany, if_true]
      rw [hrw]
      constructor
      · intro hmem
        exact absurd hmem hout
      · intro hall
        obtain ⟨m, hm, hen⟩ := List.any_eq_true.mp hany
        exact absurd (hall m hm) (is_enabled_short_iff.mp hen)
    · have hrw : processAnd g st a = disable_children_rs g a (disable st a) := by
        unfold processAnd
        rw [if_pos ha]
        simp only [hes, Bool.false_eq_true, if_false, hany, Bool.false_eq_true, if_false]
      rw [hrw]
      constructor
      · intro _
        intro m hm
        by_contra hnm
        exact hany (List.any_eq_true.mpr ⟨m, hm, is_enabled_short_iff.mpr hnm⟩)
      · intro _
        exact (onlyAdds_disable_children_rs g a (disable st a)).1
          (mem_disable.mpr (Or.inl rfl))
  · intro hnil
    unfold processAnd
    rw [if_pos ha]
    simp [hnil]

/-- Witness for C2 at concrete inputs: the AND set 3 with both members 1
and 2 disabled collapses, and the empty AND set 4 is left untouched. -/
theorem and_set_collapse_witness :
    3 ∈ (processAnd exG1 (disable (disable dc0 1) 2) 3).m_disabled ∧
    processAnd exG1 (disable dc0 1) 4 = disable dc0 1 := by
  constructor
  · exact ((and_set_collapse exG1 (disable (disable dc0 1) 2) 3 (by decide)
      (by decide)).1 (by decide)).mpr (by decide)
  · exact (and_set_collapse exG1 (disable dc0 1) 4 (by decide) (by decide)).2 (by decide)

/-! ## Claim theorems: the circular-dependency fuse (C6) -/

/-- C6: the fuse holds at most 64 components; a push below the limit
appends the component and stays within the limit, and a push at the limit
fails with FoundCircularDependency carrying the goal label and the full
list of components on the path. -/
theorem fuse_push_limit (t : TestCircularDependency) (obj : Nat) :
    (t.stack.length < fuseLimit →
      TestCircularDependency.push t obj =
        Except.ok ⟨t.goal, t.stack ++ [obj]⟩ ∧
      (t.stack ++ [obj]).length ≤ fuseLimit) ∧
    (fuseLimit ≤ t.stack.length →
      TestCircularDependency.push t obj =
        Except.error ⟨fuseLimit, t.goal, t.stack⟩) := by
  constructor
  · intro hlt
    constructor
    · unfold TestCircularDependency.push
      rw [if_pos hlt]
    · simp only [List.length_append, List.length_cons, List.length_nil]
      omega
  · intro hge
    unfold TestCircularDependency.push
    rw [if_neg (by omega)]

/-- Witness for C6 at concrete inputs: a push on a fuse holding one
component succeeds, and a push on a fuse holding 64 components fails with
the error carrying the goal and the path. -/
theorem fuse_push_limit_witness :
    TestCircularDependency.push ⟨"g", [7]⟩ 8 = Except.ok ⟨"g", [7, 8]⟩ ∧
    TestCircularDependency.push ⟨"g", List.replicate 64 5⟩ 8 =
      Except.error ⟨fuseLimit, "g", List.replicate 64 5⟩ := by
  constructor
  · exact ((fuse_push_limit ⟨"g", [7]⟩ 8).1 (by decide)).1
  · exact (fuse_push_limit ⟨"g", List.replicate 64 5⟩ 8).2 (by simp [fuseLimit])

/-! ## Claim theorems: cache and override lifecycle (C10) -/

/-- C10: every store change notification handler (notify, load, unload and
update) clears the resolved cache, both user override sets and both
counters, while an explicit reset clears only the cache and leaves the
override sets and counters unchanged. -/
theorem notifications_clear_overrides (st : DisabledComponents) (changes : List Nat)
    (obj : Nat) (attr : String) :
    notify changes st = ⟨∅, ∅, ∅, 0, 0⟩ ∧
    load st = ⟨∅, ∅, ∅, 0, 0⟩ ∧
    unload st = ⟨∅, ∅, ∅, 0, 0⟩ ∧
    update obj attr st = ⟨∅, ∅, ∅, 0, 0⟩ ∧
    reset st = ⟨∅, st.m_user_disabled, st.m_user_enabled,
      st.m_num_of_slr_enabled_resources, st.m_num_of_slr_disabled_resources⟩ :=
  ⟨rfl, rfl, rfl, rfl, rfl⟩

/-! ## Claim theorems: fixed-point loop termination and cap (C5) -/

theorem propLoopAux_spec (g : Graph) (rs_or rs_and : List Nat) :
    ∀ (remaining : Nat) (st : DisabledComponents),
      ∃ (n : Nat) (flag : Option ReadMaxAllowedIterations),
        propLoopAux g rs_or rs_and remaining st =
          ((onePass g rs_or rs_and)^[n] st, flag) ∧
        1 ≤ n ∧ n ≤ remaining + 1 ∧
        (∀ m, 1 ≤ m → m < n →
          size ((onePass g rs_or rs_and)^[m] st) ≠
            size ((onePass g rs_or rs_and)^[m - 1] st)) ∧
        (flag = none →
          size ((onePass g rs_or rs_and)^[n] st) =
            size ((onePass g rs_or rs_and)^[n - 1] st)) ∧
        (∀ e, flag = some e → n = remaining + 1 ∧ e = ⟨iterLimit⟩) := by
  intro remaining
  induction remaining with
  | zero =>
    intro st
    by_cases h : size (onePass g rs_or rs_and st) = size st
    · refine ⟨1, none, ?_, le_refl 1, by omega, ?_, ?_, ?_⟩
      · simp only [propLoopAux, h, if_true]
        simp
      · intro m h1 h2
        omega
      · intro _
        simpa using h
      · intro e he
        cases he
    · refine ⟨1, some ⟨iterLimit⟩, ?_, le_refl 1, by omega, ?_, ?_, ?_⟩
      · simp only [propLoopAux, h, if_false]
        simp
      · intro m h1 h2
        omega
      · intro he
        cases he
      · intro e he
        exact ⟨rfl, by cases he; rfl⟩
  | succ r ih =>
    intro st
    by_cases h : size (onePass g rs_or rs_and st) = size st
    · refine ⟨1, none, ?_, le_refl 1, by omega, ?_, ?_, ?_⟩
      · simp only [propLoopAux, h, if_true]
        simp
      · intro m h1 h2
        omega
      · intro _
        simpa using h
      · intro e he
        cases he
    · obtain ⟨n, flag, heq, hn1, hn2, hgrow, hnone, hsome⟩ := ih (onePass g rs_or rs_and st)
      refine ⟨n + 1, flag, ?_, by omega, by omega, ?_, ?_, ?_⟩
      · simp only [propLoopAux, h, if_false]
        rw [heq, Function.iterate_succ_apply]
      · intro m h1 h2
        match m, h1 with
        | 1, _ => simpa using h
        | m + 2, _ =>
          have := hgrow (m + 1) (by omega) (by omega)
          simpa [Function.iterate_succ_apply] using this
      · intro hf
        have := hnone hf
        have hrw1 : (onePass g rs_or rs_and)^[n] (onePass g rs_or rs_and st) =
            (onePass g rs_or rs_and)^[n + 1] st := (Function.iterate_succ_apply _ _ _).symm
        have hrw2 : (onePass g rs_or rs_and)^[n - 1] (onePass g rs_or rs_and st) =
            (onePass g rs_or rs_and)^[n] st := by
          rw [← Function.iterate_succ_apply]
          congr 1
          omega
        rw [hrw1, hrw2] at this
        simpa using this
      · intro e he
        have := hsome e he
        exact ⟨by omega, this.2⟩

/-- C5: the propagation loop terminates on every input: it performs at most
iterLimit + 1 passes of the OR and AND collapse rules, every pass before
the last strictly grew the disabled set, it exits with no error report as
soon as a pass produces no newly disabled component (and then the last pass
reached the fixed point), and when the pass count exceeds the cap of 1000
it stops after pass 1001 reporting the non-fatal ReadMaxAllowedIterations
error with limit 1000 while keeping the disabled set computed so far (the
returned state is still the iterate of the passes, so the caller receives
an answer either way). -/
theorem propagation_terminates (g : Graph) (rs_or rs_and : List Nat)
    (st : DisabledComponents) :
    ∃ (n : Nat) (flag : Option ReadMaxAllowedIterations),
      propLoop g rs_or rs_and st = ((onePass g rs_or rs_and)^[n] st, flag) ∧
      1 ≤ n ∧ n ≤ iterLimit + 1 ∧
      (∀ m, 1 ≤ m → m < n →
        size ((onePass g rs_or rs_and)^[m] st) ≠
          size ((onePass g rs_or rs_and)^[m - 1] st)) ∧
      (flag = none →
        size ((onePass g rs_or rs_and)^[n] st) =
          size ((onePass g rs_or rs_and)^[n - 1] st)) ∧
      (∀ e, flag = some e → n = iterLimit + 1 ∧ e = ⟨iterLimit⟩) := by
  obtain ⟨n, flag, heq, hn1, hn2, hgrow, hnone, hsome⟩ :=
    propLoopAux_spec g rs_or rs_and iterLimit st
  exact ⟨n, flag, heq, hn1, hn2, hgrow, hnone, hsome⟩

/-! ## Claim theorems: seeding and override precedence (C3) -/

theorem mem_seedList {sess : Session} {st : DisabledComponents} {x : Nat} :
    x ∈ seedList sess st ↔
      x ∈ st.m_user_disabled ∨ (x ∈ sess.disabled ∧ x ∉ st.m_user_enabled) := by
  simp [seedList, Finset.mem_sort, List.mem_filter]

theorem seedOne_self_mem (g : Graph) (st : DisabledComponents) (i : Nat) :
    i ∈ (seedOne g st i).m_disabled := by
  unfold seedOne
  by_cases hrs : isRS g i
  · simp only [hrs, if_true]
    exact (onlyAdds_disable_children_rs g i (disable st i)).1 (mem_disable.mpr (Or.inl rfl))
  · by_cases hsg : isSeg g i
    · simp only [if_neg hrs, hsg, if_true]
      exact (onlyAdds_disable_children_seg g i (disable st i)).1
        (mem_disable.mpr (Or.inl rfl))
    · simp only [if_neg hrs, if_neg hsg]
      exact mem_disable.mpr (Or.inl rfl)

theorem applySeeds_mem {g : Graph} {seeds : List Nat} {x : Nat} (hx : x ∈ seeds)
    (st : DisabledComponents) : x ∈ (applySeeds g seeds st).m_disabled :=
  mem_foldl_of_elem (onlyAdds_seedOne g) (fun st' => seedOne_self_mem g st' x) seeds st hx

theorem size_zero_iff {st : DisabledComponents} : size st = 0 ↔ st.m_disabled = ∅ := by
  simp [size, Finset.card_eq_zero]

/-- C3 (amended): when the resolver seeds the disabled set, the seed list
is exactly user_disabled followed by the persisted disabled entries not in
user_enabled; a component of user_disabled is always reported disabled by
the resulting resolution (regardless of user_enabled); and a persisted
entry that is user-enabled and not user-disabled is never seeded — but, as
the counterexample shows, it can still become disabled through the cascade
of a disabled container, so the original claim that is_disabled is false
for it does not hold. -/
theorem seed_override_precedence (g : Graph) (sess : Session) (st : DisabledComponents)
    (c : Nat) (h0 : size st = 0) :
    (∀ x, x ∈ seedList sess st ↔
      x ∈ st.m_user_disabled ∨ (x ∈ sess.disabled ∧ x ∉ st.m_user_enabled)) ∧
    (∀ res st2 reb, componentDisabled g sess st c false = Except.ok (res, st2, reb) →
      c ∈ st.m_user_disabled → res = true) ∧
    (c ∈ sess.disabled → c ∈ st.m_user_enabled → c ∉ st.m_user_disabled →
      c ∉ seedList sess st) := by
  refine ⟨fun x => mem_seedList, ?_, ?_⟩
  · intro res st2 reb h hc
    have hne : st.m_user_disabled ≠ ∅ := by
      intro he
      rw [he] at hc
      exact absurd hc (Finset.not_mem_empty c)
    unfold componentDisabled at h
    rw [if_pos h0] at h
    have hcond : ¬(sess.disabled.isEmpty ∧ st.m_user_disabled = ∅) := by
      intro hx
      exact hne hx.2
    rw [if_neg hcond] at h
    cases hfill : fillSession g sess with
    | error e => rw [hfill] at h; cases h
    | ok acc =>
      rw [hfill] at h
      have hinj := Except.ok.inj h
      have hres : res = answer g
          ((propLoop g acc.rs_or acc.rs_and (applySeeds g (seedList sess st) st)).1)
          c false := by
        have := congrArg Prod.fst hinj
        simpa using this.symm
      have hmem : c ∈ ((propLoop g acc.rs_or acc.rs_and
          (applySeeds g (seedList sess st) st)).1).m_disabled := by
        have hseed : c ∈ seedList sess st := mem_seedList.mpr (Or.inl hc)
        exact (onlyAdds_propLoopAux g acc.rs_or acc.rs_and iterLimit _).1
          (applySeeds_mem hseed st)
      rw [hres]
      simp [answer, is_enabled, is_enabled_short, hmem]
  · intro hd he hnd
    intro hmem
    rcases mem_seedList.mp hmem with h | h
    · exact hnd h
    · exact h.2 he

/-- Counterexample for C3 as frozen: component 1 is in the persisted
disabled list and in user_enabled and not in user_disabled, yet
is_disabled(1) is true, because the persisted resource set 0 contains 1 and
the seeding cascade disables it. -/
theorem seed_override_precedence_cex :
    1 ∈ sess3.disabled ∧ 1 ∈ dcUser1.m_user_enabled ∧ 1 ∉ dcUser1.m_user_disabled ∧
    componentDisabled exG3 sess3 dcUser1 1 false =
      Except.ok (true, ⟨{1, 0}, ∅, {1}, 1, 0⟩, true) := by
  refine ⟨by decide, by decide, by decide, ?_⟩
  simp [componentDisabled, fillSession, fillSessionSegs, seedList, applySeeds, seedOne,
    propLoop, propLoopAux, onePass, processOr, processAnd, disable_children_rs, dcRSGo,
    disable_children_seg, dcSeg, dcSegList, dcSegResLoop, answer, dcUser1, sess3, exG3,
    dc0, set_enabled, reset, size, disable, is_enabled_short, is_enabled,
    Graph.ofAssoc, aLookup, kLookup, rLookup, isRS, isSeg, iterLimit]

/-- Witness for the amended C3 at a concrete input: with user_disabled =
set containing 5 and user_enabled = set containing 1, the persisted
user-enabled entry 1 is not seeded. -/
theorem seed_override_precedence_witness : 1 ∉ seedList sess3 dcU5 :=
  (seed_override_precedence exG3 sess3 dcU5 1 (by decide)).2.2
    (by decide) (by decide) (by decide)

/-! ## Claim theorems: downward cascade of disablement (C4) -/

theorem isSeg_not_isRS {g : Graph} {x : Nat} (h : isSeg g x = true) : isRS g x = false := by
  unfold isSeg at h
  unfold isRS
  simp only [decide_eq_true_eq] at h
  simp [h]

/-- C4 (amended): every seeded component is marked disabled; a seeded
resource set marks all of its transitive contained members; a seeded
segment marks its nested segments transitively together with the
transitive members of its resource-set-typed resources (but not its
applications nor the resources themselves, as the counterexample shows);
and a resource set disabled by the OR or AND propagation rule marks all of
its transitive contained members. -/
theorem cascade_marks_descendants (g : Graph) (sess : Session) (st : DisabledComponents) :
    (∀ x, x ∈ seedList sess st →
      x ∈ (applySeeds g (seedList sess st) st).m_disabled ∧
      (isRS g x = true → ∀ d, RSDescendant g x d →
        d ∈ (applySeeds g (seedList sess st) st).m_disabled) ∧
      (isSeg g x = true → ∀ d, SegMarked g x d →
        d ∈ (applySeeds g (seedList sess st) st).m_disabled)) ∧
    (∀ st' o d, o ∉ st'.m_disabled → o ∈ (processOr g st' o).m_disabled →
      RSDescendant g o d → d ∈ (processOr g st' o).m_disabled) ∧
    (∀ st' a d, a ∉ st'.m_disabled → a ∈ (processAnd g st' a).m_disabled →
      RSDescendant g a d → d ∈ (processAnd g st' a).m_disabled) := by
  refine ⟨?_, ?_, ?_⟩
  · intro x hx
    refine ⟨applySeeds_mem hx st, ?_, ?_⟩
    · intro hrs d hdesc
      refine mem_foldl_of_elem (onlyAdds_seedOne g) ?_ (seedList sess st) st hx
      intro st'
      unfold seedOne
      simp only [hrs, if_true]
      exact disable_children_rs_covers hdesc (disable st' x)
    · intro hsg d hmk
      refine mem_foldl_of_elem (onlyAdds_seedOne g) ?_ (seedList sess st) st hx
      intro st'
      unfold seedOne
      simp only [isSeg_not_isRS hsg, Bool.false_eq_true, if_false, hsg, if_true]
      exact disable_children_seg_covers hmk (disable st' x)
  · intro st' o d hno hmem hdesc
    have he : is_enabled_short st' o = true := is_enabled_short_iff.mpr hno
    by_cases hany : (g.contains o).any (fun m => !is_enabled_short st' m) = true
    · have hrw : processOr g st' o = disable_children_rs g o (disable st' o) := by
        unfold processOr
        rw [if_pos he, if_pos hany]
      rw [hrw]
      exact disable_children_rs_covers hdesc (disable st' o)
    · have hrw : processOr g st' o = st' := by
        unfold processOr
        rw [if_pos he, if_neg hany]
      rw [hrw] at hmem
      exact absurd hmem hno
  · intro st' a d hna hmem hdesc
    have he : is_enabled_short st' a = true := is_enabled_short_iff.mpr hna
    by_cases hes : (g.contains a).isEmpty
    · have hrw : processAnd g st' a = st' := by
        unfold processAnd
        rw [if_pos he]
        simp [hes]
      rw [hrw] at hmem
      exact absurd hmem hna
    · by_cases hany : (g.contains a).any (fun m => is_enabled_short st' m) = true
      · have hrw : processAnd g st' a = st' := by
          unfold processAnd
          rw [if_pos he]
          simp only [Bool.not_eq_true] at hes
          simp only [hes, Bool.false_eq_true, if_false, hany, if_true]
        rw [hrw] at hmem
        exact absurd hmem hna
      · have hrw : processAnd g st' a = disable_children_rs g a (disable st' a) := by
          unfold processAnd
          rw [if_pos he]
          simp only [Bool.not_eq_true] at hes
          simp only [hes, Bool.false_eq_true, if_false, hany, if_false]
        rw [hrw]
        exact disable_children_rs_covers hdesc (disable st' a)

set_option maxRecDepth 8000 in
set_option maxHeartbeats 1600000 in
/-- Counterexample for C4 as frozen: segment 0 is seeded disabled, the
application 1 is a segment-level application of 0, yet after the rebuild
the disabled set is exactly the segment itself and is_disabled(1) is
false: segment-level applications are not cascaded into. -/
theorem cascade_marks_descendants_cex :
    exG4.kind 0 = CKind.segment ∧ 1 ∈ exG4.segApps 0 ∧
    componentDisabled exG4 sess4 dc0 1 false =
      Except.ok (false, ⟨{0}, ∅, ∅, 0, 0⟩, true) := by
  refine ⟨by decide, by decide, ?_⟩
  simp +decide [componentDisabled, fillSession, fillSessionSegs, fillSeg, fillSegApps,
    fillSegRess, fillSegSegs, fillRS, fillRSKids, guardPush, seedList, applySeeds, seedOne,
    propLoop, propLoopAux, onePass, processOr, processAnd, disable_children_rs, dcRSGo,
    disable_children_seg, dcSeg, dcSegList, dcSegResLoop, answer, sess4, exG4,
    dc0, size, disable, is_enabled_short, is_enabled, disabledGoal,
    Graph.ofAssoc, aLookup, kLookup, rLookup, isRS, isSeg, iterLimit, fuseLimit]

/-! ## Claim theorems: cache fast path and idempotence (C7) -/

theorem dc_ext {a b : DisabledComponents} (h1 : a.m_disabled = b.m_disabled)
    (h2 : a.m_user_disabled = b.m_user_disabled)
    (h3 : a.m_user_enabled = b.m_user_enabled)
    (h4 : a.m_num_of_slr_enabled_resources = b.m_num_of_slr_enabled_resources)
    (h5 : a.m_num_of_slr_disabled_resources = b.m_num_of_slr_disabled_resources) :
    a = b := by
  cases a
  cases b
  simp_all

theorem onlyAdds_rebuiltState (g : Graph) (sess : Session) (st : DisabledComponents)
    (acc : FillAcc) : OnlyAdds st (rebuiltState g sess st acc) :=
  onlyAdds_trans (onlyAdds_applySeeds g (seedList sess st) st)
    (onlyAdds_propLoopAux g acc.rs_or acc.rs_and iterLimit _)

theorem componentDisabled_eq_rebuild (g : Graph) (sess : Session)
    (st : DisabledComponents) (c : Nat) (skip_check : Bool) (acc : FillAcc)
    (h0 : size st = 0) (hcond : ¬(sess.disabled.isEmpty ∧ st.m_user_disabled = ∅))
    (hfill : fillSession g sess = Except.ok acc) :
    componentDisabled g sess st c skip_check =
      Except.ok (answer g (rebuiltState g sess st acc) c skip_check,
        rebuiltState g sess st acc, true) := by
  unfold componentDisabled
  rw [if_pos h0, if_neg hcond, hfill]
  rfl

/-- C7 (amended): a second call of Component::disabled with the state left
by a first call returns the same answer and the same state, and it skips
the rebuild whenever the first call left a non-empty disabled cache.  When
the rebuild resolves an empty disabled set from a non-trivial input (see
the counterexample) the second call does run the rebuild again, but the
state it starts from equals the original state, so the answer is still
identical. -/
theorem is_disabled_idempotent (g : Graph) (sess : Session) (st : DisabledComponents)
    (c : Nat) (skip_check : Bool) (r1 : Bool) (st1 : DisabledComponents) (b1 : Bool)
    (h1 : componentDisabled g sess st c skip_check = Except.ok (r1, st1, b1)) :
    ∃ b2, componentDisabled g sess st1 c skip_check = Except.ok (r1, st1, b2) ∧
      (st1.m_disabled ≠ ∅ → b2 = false) := by
  by_cases h0 : size st = 0
  · by_cases hcond : sess.disabled.isEmpty ∧ st.m_user_disabled = ∅
    · have hrw : componentDisabled g sess st c skip_check = Except.ok (false, st, false) := by
        unfold componentDisabled
        rw [if_pos h0, if_pos hcond]
      rw [hrw] at h1
      have hinj := Except.ok.inj h1
      have er : false = r1 := congrArg Prod.fst hinj
      have es : st = st1 := congrArg (fun p => p.2.1) hinj
      refine ⟨false, ?_, fun _ => rfl⟩
      rw [← es, hrw, ← er]
    · cases hfill : fillSession g sess with
      | error e =>
        exfalso
        unfold componentDisabled at h1
        rw [if_pos h0, if_neg hcond, hfill] at h1
        cases h1
      | ok acc =>
        rw [componentDisabled_eq_rebuild g sess st c skip_check acc h0 hcond hfill] at h1
        have hinj := Except.ok.inj h1
        have er : r1 = answer g (rebuiltState g sess st acc) c skip_check :=
          (congrArg Prod.fst hinj).symm
        have es : st1 = rebuiltState g sess st acc :=
          (congrArg (fun p => p.2.1) hinj).symm
        by_cases hz : size st1 = 0
        · have hempty : st1.m_disabled = ∅ := size_zero_iff.mp hz
          have hsteq : st1 = st := by
            have hframe := onlyAdds_rebuiltState g sess st acc
            have hstempty : st.m_disabled = ∅ := size_zero_iff.mp h0
            refine dc_ext ?_ ?_ ?_ ?_ ?_
            · rw [hempty, hstempty]
            · rw [es]; exact hframe.2.1
            · rw [es]; exact hframe.2.2.1
            · rw [es]; exact hframe.2.2.2.1
            · rw [es]; exact hframe.2.2.2.2
          refine ⟨true, ?_, fun hne => absurd hempty hne⟩
          have hsecond : componentDisabled g sess st1 c skip_check =
              Except.ok (answer g (rebuiltState g sess st acc) c skip_check,
                rebuiltState g sess st acc, true) := by
            rw [hsteq]
            exact componentDisabled_eq_rebuild g sess st c skip_check acc h0 hcond hfill
          rw [hsecond, ← er, ← es]
        · have hrw2 : componentDisabled g sess st1 c skip_check =
              Except.ok (answer g st1 c skip_check, st1, false) := by
            unfold componentDisabled
            rw [if_neg hz]
          refine ⟨false, ?_, fun _ => rfl⟩
          rw [hrw2, er, es]
  · have hrw : componentDisabled g sess st c skip_check =
        Except.ok (answer g st c skip_check, st, false) := by
      unfold componentDisabled
      rw [if_neg h0]
    rw [hrw] at h1
    have hinj := Except.ok.inj h1
    have er : r1 = answer g st c skip_check := (congrArg Prod.fst hinj).symm
    have es : st1 = st := (congrArg (fun p => p.2.1) hinj).symm
    refine ⟨false, ?_, fun _ => rfl⟩
    rw [es, hrw, er]

/-- Counterexample for C7 as frozen: the persisted disabled list holds
component 1 which is user-enabled, so the rebuild runs (third component
true) yet resolves an empty disabled cache, and the returned state equals
the input state dcUser1 — hence the immediately following second call is
the very same call and rebuilds the cache again instead of skipping the
rebuild. -/
theorem is_disabled_idempotent_cex :
    componentDisabled exG7 sess7 dcUser1 1 false = Except.ok (false, dcUser1, true) := by
  simp +decide [componentDisabled, fillSession, fillSessionSegs, seedList, applySeeds,
    seedOne, propLoop, propLoopAux, onePass, processOr, processAnd, answer, dcUser1,
    sess7, exG7, dc0, set_enabled, reset, size, disable, is_enabled_short, is_enabled,
    Graph.ofAssoc, aLookup, kLookup, rLookup, isRS, isSeg, iterLimit, disabledGoal]

/-- Witness for the amended C7 at a concrete input: the first call on dcU5
rebuilds and leaves the non-empty cache holding 5, and by the theorem the
second call returns the same answer and state without rebuilding. -/
theorem is_disabled_idempotent_witness :
    componentDisabled exG7 sess7 ⟨{5}, {5}, {1}, 1, 1⟩ 5 false =
      Except.ok (true, ⟨{5}, {5}, {1}, 1, 1⟩, false) := by
  have h1 : componentDisabled exG7 sess7 dcU5 5 false =
      Except.ok (true, ⟨{5}, {5}, {1}, 1, 1⟩, true) := by
    simp +decide [componentDisabled, fillSession, fillSessionSegs, seedList, applySeeds,
      seedOne, propLoop, propLoopAux, onePass, processOr, processAnd, answer, dcU5,
      dcUser1, sess7, exG7, dc0, set_enabled, set_disabled, reset, size, disable,
      is_enabled_short, is_enabled, Graph.ofAssoc, aLookup, kLookup, rLookup, isRS,
      isSeg, iterLimit, disabledGoal]
  obtain ⟨b2, heq, himp⟩ :=
    is_disabled_idempotent exG7 sess7 dcU5 5 false true ⟨{5}, {5}, {1}, 1, 1⟩ true h1
  rw [himp (by decide)] at heq
  exact heq

/-! ## Claim theorems: get_parents error wrapping (C9) -/

/-- C9: when the circular-dependency fuse overflows while get_parents walks
the graph, the whole query fails with a CannotGetParents error wrapping the
underlying FoundCircularDependency diagnostic and carrying the identity of
the target component (the entries accumulated before the failure remain in
the by-reference output list). -/
theorem get_parents_error_wrap (g : Graph) (sess : Session) (tgt : Nat)
    (e : FoundCircularDependency) (acc : List CPath)
    (h : gpRun g sess tgt = Except.error (e, acc)) :
    component_get_parents g sess tgt = (acc, some ⟨tgt, e⟩) := by
  unfold component_get_parents
  rw [h]

set_option maxRecDepth 16000 in
set_option maxHeartbeats 3000000 in
/-- Witness for C9 at a concrete input: on the containment chain of 71
nested resource sets the walk overflows the fuse at depth 64, and
get_parents reports CannotGetParents carrying the target 5000 and the
FoundCircularDependency with the limit 64, the goal label and the 64
components on the path. -/
theorem get_parents_error_wrap_witness :
    component_get_parents exG9 sess9 5000 =
      ([], some ⟨5000, ⟨64, parentsGoal, 999 :: 0 :: List.range 62⟩⟩) := by
  have h : gpRun exG9 sess9 5000 =
      Except.error (⟨64, parentsGoal, 999 :: 0 :: List.range 62⟩, []) := by
    simp +decide [gpRun, gpSegs, gpApps, mplRS, mplRSKids, mplSeg, mplSegSegs, mplSegApps,
      mplSegRess, check_segment, exG9, sess9, isRS, isSeg, fuseLimit, parentsGoal]
  exact get_parents_error_wrap exG9 sess9 5000 _ _ h

/-! ## Characterization of the parents walk (towards C8) -/

theorem descRS_iff {g : Graph} {tgt : Nat} {iST : Bool} {r : Nat} {q : CPath} :
    DescRS g tgt iST r q ↔
      (q = [] ∧ tgt ∈ g.contains r) ∨
      ∃ c q2, q = c :: q2 ∧ c ∈ g.contains r ∧ c ≠ tgt ∧ isRS g c = true ∧
        DescRS g tgt iST c q2 := by
  constructor
  · intro h
    cases h with
    | found hmem => exact Or.inl ⟨rfl, hmem⟩
    | step hmem hne hrs hd => next c p => exact Or.inr ⟨c, p, rfl, hmem, hne, hrs, hd⟩
  · intro h
    rcases h with ⟨rfl, hmem⟩ | ⟨c, q2, rfl, hmem, hne, hrs, hd⟩
    · exact DescRS.found hmem
    · exact DescRS.step hmem hne hrs hd

theorem descSeg_iff {g : Graph} {tgt : Nat} {iST : Bool} {s : Nat} {q : CPath} :
    DescSeg g tgt iST s q ↔
      (q = [] ∧ (tgt ∈ g.segSegments s ∨
        (iST = false ∧ (tgt ∈ g.segApps s ∨ tgt ∈ g.segResources s)))) ∨
      ∃ c q2, q = c :: q2 ∧ c ≠ tgt ∧
        ((c ∈ g.segSegments s ∧ DescSeg g tgt iST c q2) ∨
         (iST = false ∧ isRS g c = true ∧
           (c ∈ g.segApps s ∨ c ∈ g.segResources s) ∧ DescRS g tgt iST c q2)) := by
  constructor
  · intro h
    cases h with
    | found_seg hmem => exact Or.inl ⟨rfl, Or.inl hmem⟩
    | found_app hf hmem => exact Or.inl ⟨rfl, Or.inr ⟨hf, Or.inl hmem⟩⟩
    | found_res hf hmem => exact Or.inl ⟨rfl, Or.inr ⟨hf, Or.inr hmem⟩⟩
    | step_seg hmem hne hd => next c p =>
        exact Or.inr ⟨c, p, rfl, hne, Or.inl ⟨hmem, hd⟩⟩
    | step_app hf hmem hne hrs hd => next c p =>
        exact Or.inr ⟨c, p, rfl, hne, Or.inr ⟨hf, hrs, Or.inl hmem, hd⟩⟩
    | step_res hf hmem hne hrs hd => next c p =>
        exact Or.inr ⟨c, p, rfl, hne, Or.inr ⟨hf, hrs, Or.inr hmem, hd⟩⟩
  · intro h
    rcases h with ⟨rfl, hmem | ⟨hf, hmem | hmem⟩⟩ |
      ⟨c, q2, rfl, hne, ⟨hmem, hd⟩ | ⟨hf, hrs, hmem | hmem, hd⟩⟩
    · exact DescSeg.found_seg hmem
    · exact DescSeg.found_app hf hmem
    · exact DescSeg.found_res hf hmem
    · exact DescSeg.step_seg hmem hne hd
    · exact DescSeg.step_app hf hmem hne hrs hd
    · exact DescSeg.step_res hf hmem hne hrs hd

theorem mplRSKids_char (g : Graph) (tgt : Nat) (iST : Bool) (stack : List Nat) (pl : CPath)
    (hRS : ∀ rs out out1, mplRS g tgt stack pl rs out = Except.ok out1 →
      ∀ p, p ∈ out1 ↔ p ∈ out ∨
        ∃ q, p = pl ++ rs :: q ∧ DescRS g tgt iST rs q) :
    ∀ cs out out1, mplRSKids g tgt stack pl cs out = Except.ok out1 →
      ∀ p, p ∈ out1 ↔ p ∈ out ∨ (tgt ∈ cs ∧ p = pl) ∨
        ∃ c, c ∈ cs ∧ c ≠ tgt ∧ isRS g c = true ∧
          ∃ q, p = pl ++ c :: q ∧ DescRS g tgt iST c q := by
  intro cs
  induction cs with
  | nil =>
    intro out out1 h p
    simp only [mplRSKids] at h
    cases h
    simp
  | cons c rest ih =>
    intro out out1 h p
    simp only [mplRSKids] at h
    by_cases hct : c = tgt
    · rw [if_pos hct] at h
      subst hct
      rw [ih (out ++ [pl]) out1 h p]
      constructor
      · rintro (hp | ⟨htgt, rfl⟩ | ⟨c2, hc2, hne2, hrs2, hq⟩)
        · rcases List.mem_append.mp hp with hp | hp
          · exact Or.inl hp
          · exact Or.inr (Or.inl ⟨List.mem_cons_self _ _, by simpa using hp⟩)
        · exact Or.inr (Or.inl ⟨List.mem_cons_of_mem _ htgt, rfl⟩)
        · exact Or.inr (Or.inr ⟨c2, List.mem_cons_of_mem _ hc2, hne2, hrs2, hq⟩)
      · rintro (hp | ⟨htgt, rfl⟩ | ⟨c2, hc2, hne2, hrs2, hq⟩)
        · exact Or.inl (List.mem_append.mpr (Or.inl hp))
        · exact Or.inl (List.mem_append.mpr (Or.inr (by simp)))
        · rcases List.mem_cons.mp hc2 with rfl | hc2
          · exact absurd rfl hne2
          · exact Or.inr (Or.inr ⟨c2, hc2, hne2, hrs2, hq⟩)
    · rw [if_neg hct] at h
      by_cases hrs : isRS g c
      · rw [if_pos hrs] at h
        cases hm : mplRS g tgt stack pl c out with
        | error e => rw [hm] at h; cases h
        | ok outm =>
          rw [hm] at h
          rw [ih outm out1 h p, hRS c out outm hm p]
          constructor
          · rintro ((hp | ⟨q, rfl, hd⟩) | ⟨htgt, rfl⟩ | ⟨c2, hc2, hne2, hrs2, hq⟩)
            · exact Or.inl hp
            · exact Or.inr (Or.inr ⟨c, List.mem_cons_self c rest, hct, hrs, q, rfl, hd⟩)
            · exact Or.inr (Or.inl ⟨List.mem_cons_of_mem _ htgt, rfl⟩)
            · exact Or.inr (Or.inr ⟨c2, List.mem_cons_of_mem _ hc2, hne2, hrs2, hq⟩)
          · rintro (hp | ⟨htgt, rfl⟩ | ⟨c2, hc2, hne2, hrs2, hq⟩)
            · exact Or.inl (Or.inl hp)
            · rcases List.mem_cons.mp htgt with hh | htgt
              · exact absurd hh.symm hct
              · exact Or.inr (Or.inl ⟨htgt, rfl⟩)
            · rcases List.mem_cons.mp hc2 with rfl | hc2
              · exact Or.inl (Or.inr hq)
              · exact Or.inr (Or.inr ⟨c2, hc2, hne2, hrs2, hq⟩)
      · rw [if_neg hrs] at h
        rw [ih out out1 h p]
        constructor
        · rintro (hp | ⟨htgt, rfl⟩ | ⟨c2, hc2, hne2, hrs2, hq⟩)
          · exact Or.inl hp
          · exact Or.inr (Or.inl ⟨List.mem_cons_of_mem _ htgt, rfl⟩)
          · exact Or.inr (Or.inr ⟨c2, List.mem_cons_of_mem _ hc2, hne2, hrs2, hq⟩)
        · rintro (hp | ⟨htgt, rfl⟩ | ⟨c2, hc2, hne2, hrs2, hq⟩)
          · exact Or.inl hp
          · rcases List.mem_cons.mp htgt with hh | htgt
            · exact absurd hh.symm hct
            · exact Or.inr (Or.inl ⟨htgt, rfl⟩)
          · rcases List.mem_cons.mp hc2 with rfl | hc2
            · exact absurd hrs2 (by simp [hrs])
            · exact Or.inr (Or.inr ⟨c2, hc2, hne2, hrs2, hq⟩)

theorem mplRS_char (g : Graph) (tgt : Nat) (iST : Bool) :
    ∀ (n : Nat) (stack : List Nat), fuseLimit - stack.length ≤ n →
      ∀ pl rs out out1, mplRS g tgt stack pl rs out = Except.ok out1 →
        ∀ p, p ∈ out1 ↔ p ∈ out ∨
          ∃ q, p = pl ++ rs :: q ∧ DescRS g tgt iST rs q := by
  intro n
  induction n with
  | zero =>
    intro stack hle pl rs out out1 h
    exfalso
    simp only [mplRS] at h
    rw [dif_neg (by omega)] at h
    cases h
  | succ n ihn =>
    intro stack hle pl rs out out1 h p
    by_cases hlt : stack.length < fuseLimit
    · simp only [mplRS, dif_pos hlt] at h
      have hkids := mplRSKids_char g tgt iST (stack ++ [rs]) (pl ++ [rs])
        (fun rs2 out2 out3 h2 => ihn (stack ++ [rs])
          (by simp only [List.length_append, List.length_cons, List.length_nil]; omega)
          (pl ++ [rs]) rs2 out2 out3 h2)
        (g.contains rs) out out1 h p
      rw [hkids]
      constructor
      · rintro (hp | ⟨htgt, rfl⟩ | ⟨c, hc, hne, hrs, q, rfl, hd⟩)
        · exact Or.inl hp
        · exact Or.inr ⟨[], by simp, DescRS.found htgt⟩
        · exact Or.inr ⟨c :: q, by simp, DescRS.step hc hne hrs hd⟩
      · rintro (hp | ⟨q, rfl, hd⟩)
        · exact Or.inl hp
        · rcases descRS_iff.mp hd with ⟨rfl, htgt⟩ | ⟨c, q2, rfl, hc, hne, hrs, hd2⟩
          · exact Or.inr (Or.inl ⟨htgt, by simp⟩)
          · exact Or.inr (Or.inr ⟨c, hc, hne, hrs, q2, by simp, hd2⟩)
    · exfalso
      simp only [mplRS, dif_neg hlt] at h
      cases h

theorem mplRS_char_all (g : Graph) (tgt : Nat) (iST : Bool) (stack : List Nat)
    (pl : CPath) (rs : Nat) (out out1 : List CPath)
    (h : mplRS g tgt stack pl rs out = Except.ok out1) :
    ∀ p, p ∈ out1 ↔ p ∈ out ∨ ∃ q, p = pl ++ rs :: q ∧ DescRS g tgt iST rs q :=
  mplRS_char g tgt iST fuseLimit stack (by omega) pl rs out out1 h

theorem mplSegApps_char (g : Graph) (tgt : Nat) (iST : Bool) (stack : List Nat)
    (pl : CPath) :
    ∀ cs out out1, mplSegApps g tgt iST stack pl cs out = Except.ok out1 →
      ∀ p, p ∈ out1 ↔ p ∈ out ∨ (tgt ∈ cs ∧ p = pl) ∨
        ∃ c, c ∈ cs ∧ c ≠ tgt ∧ isRS g c = true ∧
          ∃ q, p = pl ++ c :: q ∧ DescRS g tgt iST c q := by
  intro cs
  induction cs with
  | nil =>
    intro out out1 h p
    simp only [mplSegApps] at h
    cases h
    simp
  | cons c rest ih =>
    intro out out1 h p
    simp only [mplSegApps] at h
    by_cases hct : c = tgt
    · rw [if_pos hct] at h
      subst hct
      rw [ih (out ++ [pl]) out1 h p]
      constructor
      · rintro (hp | ⟨htgt, rfl⟩ | ⟨c2, hc2, hne2, hrs2, hq⟩)
        · rcases List.mem_append.mp hp with hp | hp
          · exact Or.inl hp
          · exact Or.inr (Or.inl ⟨List.mem_cons_self _ _, by simpa using hp⟩)
        · exact Or.inr (Or.inl ⟨List.mem_cons_of_mem _ htgt, rfl⟩)
        · exact Or.inr (Or.inr ⟨c2, List.mem_cons_of_mem _ hc2, hne2, hrs2, hq⟩)
      · rintro (hp | ⟨htgt, rfl⟩ | ⟨c2, hc2, hne2, hrs2, hq⟩)
        · exact Or.inl (List.mem_append.mpr (Or.inl hp))
        · exact Or.inl (List.mem_append.mpr (Or.inr (by simp)))
        · rcases List.mem_cons.mp hc2 with rfl | hc2
          · exact absurd rfl hne2
          · exact Or.inr (Or.inr ⟨c2, hc2, hne2, hrs2, hq⟩)
    · rw [if_neg hct] at h
      by_cases hrs : isRS g c
      · rw [if_pos hrs] at h
        cases hm : mplRS g tgt stack pl c out with
        | error e => rw [hm] at h; cases h
        | ok outm =>
          rw [hm] at h
          rw [ih outm out1 h p, mplRS_char_all g tgt iST stack pl c out outm hm p]
          constructor
          · rintro ((hp | ⟨q, rfl, hd⟩) | ⟨htgt, rfl⟩ | ⟨c2, hc2, hne2, hrs2, hq⟩)
            · exact Or.inl hp
            · exact Or.inr (Or.inr ⟨c, List.mem_cons_self c rest, hct, hrs, q, rfl, hd⟩)
            · exact Or.inr (Or.inl ⟨List.mem_cons_of_mem _ htgt, rfl⟩)
            · exact Or.inr (Or.inr ⟨c2, List.mem_cons_of_mem _ hc2, hne2, hrs2, hq⟩)
          · rintro (hp | ⟨htgt, rfl⟩ | ⟨c2, hc2, hne2, hrs2, hq⟩)
            · exact Or.inl (Or.inl hp)
            · rcases List.mem_cons.mp htgt with hh | htgt
              · exact absurd hh.symm hct
              · exact Or.inr (Or.inl ⟨htgt, rfl⟩)
            · rcases List.mem_cons.mp hc2 with rfl | hc2
              · exact Or.inl (Or.inr hq)
              · exact Or.inr (Or.inr ⟨c2, hc2, hne2, hrs2, hq⟩)
      · rw [if_neg hrs] at h
        rw [ih out out1 h p]
        constructor
        · rintro (hp | ⟨htgt, rfl⟩ | ⟨c2, hc2, hne2, hrs2, hq⟩)
          · exact Or.inl hp
          · exact Or.inr (Or.inl ⟨List.mem_cons_of_mem _ htgt, rfl⟩)
          · exact Or.inr (Or.inr ⟨c2, List.mem_cons_of_mem _ hc2, hne2, hrs2, hq⟩)
        · rintro (hp | ⟨htgt, rfl⟩ | ⟨c2, hc2, hne2, hrs2, hq⟩)
          · exact Or.inl hp
          · rcases List.mem_cons.mp htgt with hh | htgt
            · exact absurd hh.symm hct
            · exact Or.inr (Or.inl ⟨htgt, rfl⟩)
          · rcases List.mem_cons.mp hc2 with rfl | hc2
            · exact absurd hrs2 (by simp [hrs])
            · exact Or.inr (Or.inr ⟨c2, hc2, hne2, hrs2, hq⟩)

theorem mplSegRess_char (g : Graph) (tgt : Nat) (iST : Bool) (stack : List Nat)
    (pl : CPath) :
    ∀ cs out out1, mplSegRess g tgt iST stack pl cs out = Except.ok out1 →
      ∀ p, p ∈ out1 ↔ p ∈ out ∨ (tgt ∈ cs ∧ p = pl) ∨
        ∃ c, c ∈ cs ∧ c ≠ tgt ∧ isRS g c = true ∧
          ∃ q, p = pl ++ c :: q ∧ DescRS g tgt iST c q := by
  intro cs
  induction cs with
  | nil =>
    intro out out1 h p
    simp only [mplSegRess] at h
    cases h
    simp
  | cons c rest ih =>
    intro out out1 h p
    simp only [mplSegRess] at h
    by_cases hct : c = tgt
    · rw [if_pos hct] at h
      subst hct
      rw [ih (out ++ [pl]) out1 h p]
      constructor
      · rintro (hp | ⟨htgt, rfl⟩ | ⟨c2, hc2, hne2, hrs2, hq⟩)
        · rcases List.mem_append.mp hp with hp | hp
          · exact Or.inl hp
          · exact Or.inr (Or.inl ⟨List.mem_cons_self _ _, by simpa using hp⟩)
        · exact Or.inr (Or.inl ⟨List.mem_cons_of_mem _ htgt, rfl⟩)
        · exact Or.inr (Or.inr ⟨c2, List.mem_cons_of_mem _ hc2, hne2, hrs2, hq⟩)
      · rintro (hp | ⟨htgt, rfl⟩ | ⟨c2, hc2, hne2, hrs2, hq⟩)
        · exact Or.inl (List.mem_append.mpr (Or.inl hp))
        · exact Or.inl (List.mem_append.mpr (Or.inr (by simp)))
        · rcases List.mem_cons.mp hc2 with rfl | hc2
          · exact absurd rfl hne2
          · exact Or.inr (Or.inr ⟨c2, hc2, hne2, hrs2, hq⟩)
    · rw [if_neg hct] at h
      by_cases hrs : isRS g c
      · rw [if_pos hrs] at h
        cases hm : mplRS g tgt stack pl c out with
        | error e => rw [hm] at h; cases h
        | ok outm =>
          rw [hm] at h
          rw [ih outm out1 h p, mplRS_char_all g tgt iST stack pl c out outm hm p]
          constructor
          · rintro ((hp | ⟨q, rfl, hd⟩) | ⟨htgt, rfl⟩ | ⟨c2, hc2, hne2, hrs2, hq⟩)
            · exact Or.inl hp
            · exact Or.inr (Or.inr ⟨c, List.mem_cons_self c rest, hct, hrs, q, rfl, hd⟩)
            · exact Or.inr (Or.inl ⟨List.mem_cons_of_mem _ htgt, rfl⟩)
            · exact Or.inr (Or.inr ⟨c2, List.mem_cons_of_mem _ hc2, hne2, hrs2, hq⟩)
          · rintro (hp | ⟨htgt, rfl⟩ | ⟨c2, hc2, hne2, hrs2, hq⟩)
            · exact Or.inl (Or.inl hp)
            · rcases List.mem_cons.mp htgt with hh | htgt
              · exact absurd hh.symm hct
              · exact Or.inr (Or.inl ⟨htgt, rfl⟩)
            · rcases List.mem_cons.mp hc2 with rfl | hc2
              · exact Or.inl (Or.inr hq)
              · exact Or.inr (Or.inr ⟨c2, hc2, hne2, hrs2, hq⟩)
      · rw [if_neg hrs] at h
        rw [ih out out1 h p]
        constructor
        · rintro (hp | ⟨htgt, rfl⟩ | ⟨c2, hc2, hne2, hrs2, hq⟩)
          · exact Or.inl hp
          · exact Or.inr (Or.inl ⟨List.mem_cons_of_mem _ htgt, rfl⟩)
          · exact Or.inr (Or.inr ⟨c2, List.mem_cons_of_mem _ hc2, hne2, hrs2, hq⟩)
        · rintro (hp | ⟨htgt, rfl⟩ | ⟨c2, hc2, hne2, hrs2, hq⟩)
          · exact Or.inl hp
          · rcases List.mem_cons.mp htgt with hh | htgt
            · exact absurd hh.symm hct
            · exact Or.inr (Or.inl ⟨htgt, rfl⟩)
          · rcases List.mem_cons.mp hc2 with rfl | hc2
            · exact absurd hrs2 (by simp [hrs])
            · exact Or.inr (Or.inr ⟨c2, hc2, hne2, hrs2, hq⟩)

theorem mplSegSegs_char (g : Graph) (tgt : Nat) (iST : Bool) (stack : List Nat)
    (pl : CPath)
    (hSeg : ∀ seg out out1, mplSeg g tgt iST stack pl seg out = Except.ok out1 →
      ∀ p, p ∈ out1 ↔ p ∈ out ∨
        ∃ q, p = pl ++ seg :: q ∧ DescSeg g tgt iST seg q) :
    ∀ cs out out1, mplSegSegs g tgt iST stack pl cs out = Except.ok out1 →
      ∀ p, p ∈ out1 ↔ p ∈ out ∨ (tgt ∈ cs ∧ p = pl) ∨
        ∃ c, c ∈ cs ∧ c ≠ tgt ∧
          ∃ q, p = pl ++ c :: q ∧ DescSeg g tgt iST c q := by
  intro cs
  induction cs with
  | nil =>
    intro out out1 h p
    simp only [mplSegSegs] at h
    cases h
    simp
  | cons c rest ih =>
    intro out out1 h p
    simp only [mplSegSegs] at h
    by_cases hct : c = tgt
    · rw [if_pos hct] at h
      subst hct
      rw [ih (out ++ [pl]) out1 h p]
      constructor
      · rintro (hp | ⟨htgt, rfl⟩ | ⟨c2, hc2, hne2, hq⟩)
        · rcases List.mem_append.mp hp with hp | hp
          · exact Or.inl hp
          · exact Or.inr (Or.inl ⟨List.mem_cons_self _ _, by simpa using hp⟩)
        · exact Or.inr (Or.inl ⟨List.mem_cons_of_mem _ htgt, rfl⟩)
        · exact Or.inr (Or.inr ⟨c2, List.mem_cons_of_mem _ hc2, hne2, hq⟩)
      · rintro (hp | ⟨htgt, rfl⟩ | ⟨c2, hc2, hne2, hq⟩)
        · exact Or.inl (List.mem_append.mpr (Or.inl hp))
        · exact Or.inl (List.mem_append.mpr (Or.inr (by simp)))
        · rcases List.mem_cons.mp hc2 with rfl | hc2
          · exact absurd rfl hne2
          · exact Or.inr (Or.inr ⟨c2, hc2, hne2, hq⟩)
    · rw [if_neg hct] at h
      cases hm : mplSeg g tgt iST stack pl c out with
      | error e => rw [hm] at h; cases h
      | ok outm =>
        rw [hm] at h
        rw [ih outm out1 h p, hSeg c out outm hm p]
        constructor
        · rintro ((hp | ⟨q, rfl, hd⟩) | ⟨htgt, rfl⟩ | ⟨c2, hc2, hne2, hq⟩)
          · exact Or.inl hp
          · exact Or.inr (Or.inr ⟨c, List.mem_cons_self c rest, hct, q, rfl, hd⟩)
          · exact Or.inr (Or.inl ⟨List.mem_cons_of_mem _ htgt, rfl⟩)
          · exact Or.inr (Or.inr ⟨c2, List.mem_cons_of_mem _ hc2, hne2, hq⟩)
        · rintro (hp | ⟨htgt, rfl⟩ | ⟨c2, hc2, hne2, hq⟩)
          · exact Or.inl (Or.inl hp)
          · rcases List.mem_cons.mp htgt with hh | htgt
            · exact absurd hh.symm hct
            · exact Or.inr (Or.inl ⟨htgt, rfl⟩)
          · rcases List.mem_cons.mp hc2 with rfl | hc2
            · exact Or.inl (Or.inr hq)
            · exact Or.inr (Or.inr ⟨c2, hc2, hne2, hq⟩)

theorem mplSeg_char (g : Graph) (tgt : Nat) (iST : Bool) :
    ∀ (n : Nat) (stack : List Nat), fuseLimit - stack.length ≤ n →
      ∀ pl seg out out1, mplSeg g tgt iST stack pl seg out = Except.ok out1 →
        ∀ p, p ∈ out1 ↔ p ∈ out ∨
          ∃ q, p = pl ++ seg :: q ∧ DescSeg g tgt iST seg q := by
  intro n
  induction n with
  | zero =>
    intro stack hle pl seg out out1 h
    exfalso
    simp only [mplSeg] at h
    rw [dif_neg (by omega)] at h
    cases h
  | succ n ihn =>
    intro stack hle pl seg out out1 h p
    by_cases hlt : stack.length < fuseLimit
    · simp only [mplSeg, dif_pos hlt] at h
      split at h
      next e hm1 => cases h
      next outS hm1 =>
        have char1 := mplSegSegs_char g tgt iST (stack ++ [seg]) (pl ++ [seg])
          (fun sg2 out2 out3 h2 => ihn (stack ++ [seg])
            (by simp only [List.length_append, List.length_cons, List.length_nil]; omega)
            (pl ++ [seg]) sg2 out2 out3 h2)
          (g.segSegments seg) out outS hm1
        by_cases hist : iST = true
        · rw [if_pos hist] at h
          cases h
          rw [char1 p]
          constructor
          · rintro (hp | ⟨htgt, rfl⟩ | ⟨c, hc, hne, q, rfl, hd⟩)
            · exact Or.inl hp
            · exact Or.inr ⟨[], by simp, DescSeg.found_seg htgt⟩
            · exact Or.inr ⟨c :: q, by simp, DescSeg.step_seg hc hne hd⟩
          · rintro (hp | ⟨q, rfl, hd⟩)
            · exact Or.inl hp
            · rcases descSeg_iff.mp hd with ⟨rfl, htgt | ⟨hf, _⟩⟩ |
                ⟨c, q2, rfl, hne, ⟨hc, hd2⟩ | ⟨hf, _, _, _⟩⟩
              · exact Or.inr (Or.inl ⟨htgt, by simp⟩)
              · rw [hist] at hf; cases hf
              · exact Or.inr (Or.inr ⟨c, hc, hne, q2, by simp, hd2⟩)
              · rw [hist] at hf; cases hf
        · have hf : iST = false := by simpa using hist
          rw [if_neg hist] at h
          split at h
          next e hm2 => cases h
          next outA hm2 =>
            have char2 := mplSegApps_char g tgt iST (stack ++ [seg]) (pl ++ [seg])
              (g.segApps seg) outS outA hm2
            have char3 := mplSegRess_char g tgt iST (stack ++ [seg]) (pl ++ [seg])
              (g.segResources seg) outA out1 h
            rw [char3 p, char2 p, char1 p]
            constructor
            · rintro (((hp | ⟨htgt, rfl⟩ | ⟨c, hc, hne, q, rfl, hd⟩) |
                ⟨htgt, rfl⟩ | ⟨c, hc, hne, hrs, q, rfl, hd⟩) |
                ⟨htgt, rfl⟩ | ⟨c, hc, hne, hrs, q, rfl, hd⟩)
              · exact Or.inl hp
              · exact Or.inr ⟨[], by simp, DescSeg.found_seg htgt⟩
              · exact Or.inr ⟨c :: q, by simp, DescSeg.step_seg hc hne hd⟩
              · exact Or.inr ⟨[], by simp, DescSeg.found_app hf htgt⟩
              · exact Or.inr ⟨c :: q, by simp, DescSeg.step_app hf hc hne hrs hd⟩
              · exact Or.inr ⟨[], by simp, DescSeg.found_res hf htgt⟩
              · exact Or.inr ⟨c :: q, by simp, DescSeg.step_res hf hc hne hrs hd⟩
            · rintro (hp | ⟨q, rfl, hd⟩)
              · exact Or.inl (Or.inl (Or.inl hp))
              · rcases descSeg_iff.mp hd with ⟨rfl, htgt | ⟨_, htgt | htgt⟩⟩ |
                  ⟨c, q2, rfl, hne, ⟨hc, hd2⟩ | ⟨_, hrs, hc | hc, hd2⟩⟩
                · exact Or.inl (Or.inl (Or.inr (Or.inl ⟨htgt, by simp⟩)))
                · exact Or.inl (Or.inr (Or.inl ⟨htgt, by simp⟩))
                · exact Or.inr (Or.inl ⟨htgt, by simp⟩)
                · exact Or.inl (Or.inl (Or.inr (Or.inr ⟨c, hc, hne, q2, by simp, hd2⟩)))
                · exact Or.inl (Or.inr (Or.inr ⟨c, hc, hne, hrs, q2, by simp, hd2⟩))
                · exact Or.inr (Or.inr ⟨c, hc, hne, hrs, q2, by simp, hd2⟩)
    · exfalso
      simp only [mplSeg, dif_neg hlt] at h
      cases h

theorem mplSeg_char_all (g : Graph) (tgt : Nat) (iST : Bool) (stack : List Nat)
    (pl : CPath) (seg : Nat) (out out1 : List CPath)
    (h : mplSeg g tgt iST stack pl seg out = Except.ok out1) :
    ∀ p, p ∈ out1 ↔ p ∈ out ∨ ∃ q, p = pl ++ seg :: q ∧ DescSeg g tgt iST seg q :=
  mplSeg_char g tgt iST fuseLimit stack (by omega) pl seg out out1 h

theorem check_segment_char (g : Graph) (tgt : Nat) (iST : Bool) (stack : List Nat)
    (seg : Nat) (out out1 : List CPath)
    (h : check_segment g tgt iST stack seg out = Except.ok out1) :
    ∀ p, p ∈ out1 ↔ p ∈ out ∨ (seg = tgt ∧ p = []) ∨
      ∃ q, p = seg :: q ∧ DescSeg g tgt iST seg q := by
  intro p
  simp only [check_segment] at h
  by_cases hlt : stack.length < fuseLimit
  · rw [dif_pos hlt] at h
    have char := mplSeg_char_all g tgt iST (stack ++ [seg]) [] seg
      (if seg = tgt then out ++ [([] : CPath)] else out) out1 h p
    rw [char]
    by_cases hst : seg = tgt
    · subst hst
      simp only [eq_self_iff_true, if_true, List.mem_append, List.mem_singleton,
        List.nil_append]
      constructor
      · rintro ((hp | rfl) | ⟨q, rfl, hd⟩)
        · exact Or.inl hp
        · exact Or.inr (Or.inl ⟨trivial, rfl⟩)
        · exact Or.inr (Or.inr ⟨q, rfl, hd⟩)
      · rintro (hp | ⟨-, rfl⟩ | ⟨q, rfl, hd⟩)
        · exact Or.inl (Or.inl hp)
        · exact Or.inl (Or.inr rfl)
        · exact Or.inr ⟨q, rfl, hd⟩
    · simp only [if_neg hst, List.nil_append]
      constructor
      · rintro (hp | ⟨q, rfl, hd⟩)
        · exact Or.inl hp
        · exact Or.inr (Or.inr ⟨q, rfl, hd⟩)
      · rintro (hp | ⟨hh, rfl⟩ | ⟨q, rfl, hd⟩)
        · exact Or.inl hp
        · exact absurd hh hst
        · exact Or.inr ⟨q, rfl, hd⟩
  · rw [dif_neg hlt] at h
    cases h

theorem gpSegs_char (g : Graph) (tgt : Nat) (iST : Bool) (stack : List Nat) :
    ∀ cs out out1, gpSegs g tgt iST stack cs out = Except.ok out1 →
      ∀ p, p ∈ out1 ↔ p ∈ out ∨
        ∃ s, s ∈ cs ∧ ((s = tgt ∧ p = []) ∨
          ∃ q, p = s :: q ∧ DescSeg g tgt iST s q) := by
  intro cs
  induction cs with
  | nil =>
    intro out out1 h p
    simp only [gpSegs] at h
    cases h
    simp
  | cons c rest ih =>
    intro out out1 h p
    simp only [gpSegs] at h
    split at h
    next e hm => cases h
    next outm hm =>
      rw [ih outm out1 h p, check_segment_char g tgt iST stack c out outm hm p]
      constructor
      · rintro ((hp | hbit) | ⟨s, hs, hbit⟩)
        · exact Or.inl hp
        · exact Or.inr ⟨c, List.mem_cons_self c rest, hbit⟩
        · exact Or.inr ⟨s, List.mem_cons_of_mem _ hs, hbit⟩
      · rintro (hp | ⟨s, hs, hbit⟩)
        · exact Or.inl (Or.inl hp)
        · rcases List.mem_cons.mp hs with rfl | hs
          · exact Or.inl (Or.inr hbit)
          · exact Or.inr ⟨s, hs, hbit⟩

theorem gpApps_char (g : Graph) (tgt : Nat) (iST : Bool) (stack : List Nat) :
    ∀ cs out out1, gpApps g tgt stack cs out = Except.ok out1 →
      ∀ p, p ∈ out1 ↔ p ∈ out ∨
        ∃ a, a ∈ cs ∧ isRS g a = true ∧ ((a = tgt ∧ p = []) ∨
          ∃ q, p = a :: q ∧ DescRS g tgt iST a q) := by
  intro cs
  induction cs with
  | nil =>
    intro out out1 h p
    simp only [gpApps] at h
    cases h
    simp
  | cons c rest ih =>
    intro out out1 h p
    simp only [gpApps] at h
    by_cases hrs : isRS g c
    · rw [if_pos hrs] at h
      by_cases hlt : stack.length < fuseLimit
      · rw [dif_pos hlt] at h
        split at h
        next e hm => cases h
        next outm hm =>
          have char := mplRS_char_all g tgt iST (stack ++ [c]) [] c
            (if c = tgt then out ++ [([] : CPath)] else out) outm hm
          rw [ih outm out1 h p, char p]
          by_cases hct : c = tgt
          · subst hct
            simp only [eq_self_iff_true, if_true, List.mem_append, List.mem_singleton,
        List.nil_append]
            constructor
            · rintro (((hp | rfl) | ⟨q, rfl, hd⟩) | ⟨a, ha, hbit⟩)
              · exact Or.inl hp
              · exact Or.inr ⟨c, List.mem_cons_self c rest, hrs, Or.inl ⟨rfl, rfl⟩⟩
              · exact Or.inr ⟨c, List.mem_cons_self c rest, hrs, Or.inr ⟨q, rfl, hd⟩⟩
              · exact Or.inr ⟨a, List.mem_cons_of_mem _ ha, hbit⟩
            · rintro (hp | ⟨a, ha, hrs2, hbit⟩)
              · exact Or.inl (Or.inl (Or.inl hp))
              · rcases List.mem_cons.mp ha with rfl | ha
                · rcases hbit with ⟨-, rfl⟩ | ⟨q, rfl, hd⟩
                  · exact Or.inl (Or.inl (Or.inr rfl))
                  · exact Or.inl (Or.inr ⟨q, rfl, hd⟩)
                · exact Or.inr ⟨a, ha, hrs2, hbit⟩
          · simp only [if_neg hct, List.nil_append]
            constructor
            · rintro ((hp | ⟨q, rfl, hd⟩) | ⟨a, ha, hbit⟩)
              · exact Or.inl hp
              · exact Or.inr ⟨c, List.mem_cons_self c rest, hrs, Or.inr ⟨q, rfl, hd⟩⟩
              · exact Or.inr ⟨a, List.mem_cons_of_mem _ ha, hbit⟩
            · rintro (hp | ⟨a, ha, hrs2, hbit⟩)
              · exact Or.inl (Or.inl hp)
              · rcases List.mem_cons.mp ha with rfl | ha
                · rcases hbit with ⟨hh, rfl⟩ | ⟨q, rfl, hd⟩
                  · exact absurd hh hct
                  · exact Or.inl (Or.inr ⟨q, rfl, hd⟩)
                · exact Or.inr ⟨a, ha, hrs2, hbit⟩
      · rw [dif_neg hlt] at h
        cases h
    · rw [if_neg hrs] at h
      rw [ih out out1 h p]
      constructor
      · rintro (hp | ⟨a, ha, hbit⟩)
        · exact Or.inl hp
        · exact Or.inr ⟨a, List.mem_cons_of_mem _ ha, hbit⟩
      · rintro (hp | ⟨a, ha, hrs2, hbit⟩)
        · exact Or.inl hp
        · rcases List.mem_cons.mp ha with rfl | ha
          · exact absurd hrs2 (by simp [hrs])
          · exact Or.inr ⟨a, ha, hrs2, hbit⟩

/-- C8: when the parents walk completes without a circular-dependency
failure, the returned entries are exactly the containment routes of the
target: for every path p, p is returned iff p is a top-down container
sequence from a top-level segment or top-level resource-set application
down to (but excluding) the target, with the empty path returned for a
target that is itself a top-level segment (or a top-level resource-set
application); consequently a target reachable along k distinct routes
yields exactly the k corresponding entries. -/
theorem get_parents_complete (g : Graph) (sess : Session) (tgt : Nat)
    (out : List CPath) (h : gpRun g sess tgt = Except.ok out) :
    ∀ p, p ∈ out ↔ TopRoute g sess tgt (isSeg g tgt) p := by
  intro p
  simp only [gpRun] at h
  split at h
  next e hm => cases h
  next out1 hm =>
    rw [gpApps_char g tgt (isSeg g tgt) [sess.uid] sess.applications out1 out h p,
      gpSegs_char g tgt (isSeg g tgt) [sess.uid] sess.segments [] out1 hm p]
    constructor
    · rintro ((hp | ⟨s, hs, ⟨rfl, rfl⟩ | ⟨q, rfl, hd⟩⟩) | ⟨a, ha, hrs, ⟨rfl, rfl⟩ | ⟨q, rfl, hd⟩⟩)
      · cases hp
      · exact TopRoute.top_seg_self hs
      · exact TopRoute.seg_route hs hd
      · exact TopRoute.top_app_self ha hrs
      · exact TopRoute.app_route ha hrs hd
    · intro hr
      cases hr with
      | top_seg_self hs => exact Or.inl (Or.inr ⟨tgt, hs, Or.inl ⟨rfl, rfl⟩⟩)
      | top_app_self ha hrs => exact Or.inr ⟨tgt, ha, hrs, Or.inl ⟨rfl, rfl⟩⟩
      | seg_route hs hd => next s q =>
          exact Or.inl (Or.inr ⟨s, hs, Or.inr ⟨q, rfl, hd⟩⟩)
      | app_route ha hrs hd => next a q =>
          exact Or.inr ⟨a, ha, hrs, Or.inr ⟨q, rfl, hd⟩⟩

/-- Witness for C8 at a concrete input: the walk over the session with the
single segment 10 holding the application 5 returns exactly one entry, and
by the theorem the path consisting of the segment 10 is a containment
route of the target 5. -/
theorem get_parents_complete_witness : TopRoute exG8 sess8 5 (isSeg exG8 5) [10] := by
  have h : gpRun exG8 sess8 5 = Except.ok [[10]] := by
    simp +decide [gpRun, gpSegs, gpApps, mplRS, mplRSKids, mplSeg, mplSegSegs, mplSegApps,
      mplSegRess, check_segment, exG8, sess8, Graph.ofAssoc, aLookup, kLookup, rLookup,
      isRS, isSeg, fuseLimit, parentsGoal]
  exact (get_parents_complete exG8 sess8 5 [[10]] h [10]).mp (by simp)

end DuneDal
